import Mathlib

/-!
Verification of the core of `unraid-auto-unlock` against its specification.

The Go sources are shallowly embedded: bytes are `Nat` values (kept `< 256`
where it matters), byte strings are `List Nat`, files are a total map from
path to optional contents, and fallible Go functions return `Except String`.
External library calls (HMAC-SHA256 from `crypto/hmac`, AES-GCM from
`crypto/cipher`, JSON from `encoding/json`, Shamir sharing arithmetic from
`bytemare/secret-sharing`) are embedded by their functional contracts:
the surrounding repository code is translated line by line, while the
library primitive appears either as an explicit mathematical model
(base64, Shamir polynomial arithmetic over the scalar field) or as a
function parameter constrained by the library's documented behaviour
(the MAC function, the AEAD sealf/open pair, the JSON codec).
-/

namespace AutoUnlock

/-! ### Byte-level helpers

Little-endian byte serialization used to model the external share and
scalar encodings. -/

/-- Little-endian encoding of `x` into exactly `k` bytes. -/
def natToLE : Nat → Nat → List Nat
  | 0, _ => []
  | k + 1, x => x % 256 :: natToLE k (x / 256)

/-- Little-endian decoding of a byte list into a natural number. -/
def leToNat (bs : List Nat) : Nat :=
  bs.foldr (fun b acc => b + 256 * acc) 0

theorem natToLE_length (k x : Nat) : (natToLE k x).length = k := by
  induction k generalizing x with
  | zero => rfl
  | succ k ih => simp [natToLE, ih]

theorem natToLE_lt (k x : Nat) : ∀ b ∈ natToLE k x, b < 256 := by
  induction k generalizing x with
  | zero => simp [natToLE]
  | succ k ih =>
    intro b hb
    simp only [natToLE, List.mem_cons] at hb
    rcases hb with h | h
    · omega
    · exact ih _ _ h

theorem leToNat_natToLE (k x : Nat) (h : x < 256 ^ k) :
    leToNat (natToLE k x) = x := by
  induction k generalizing x with
  | zero =>
    simp only [pow_zero, Nat.lt_one_iff] at h
    simp [natToLE, leToNat, h]
  | succ k ih =>
    have hdiv : x / 256 < 256 ^ k := by
      rw [Nat.div_lt_iff_lt_mul (by norm_num)]
      calc x < 256 ^ (k + 1) := h
        _ = 256 ^ k * 256 := by ring
    simp only [natToLE, leToNat, List.foldr_cons]
    have : leToNat (natToLE k (x / 256)) = x / 256 := ih _ hdiv
    simp only [leToNat] at this
    rw [this]
    omega

/-! ### Base64 (model of Go `encoding/base64` StdEncoding)

`DecodeString` accepts standard-alphabet base64 with `=` padding, skipping
carriage returns and newlines, and rejects anything else. -/

/-- Character for a six-bit value, standard base64 alphabet. -/
def b64EncodeChar (i : Nat) : Char :=
  if i < 26 then Char.ofNat (65 + i)
  else if i < 52 then Char.ofNat (97 + (i - 26))
  else if i < 62 then Char.ofNat (48 + (i - 52))
  else if i = 62 then '+'
  else '/'

/-- Six-bit value of a base64 alphabet character, `none` for anything else
(including the padding character). -/
def b64DecodeChar (c : Char) : Option Nat :=
  let n := c.toNat
  if 65 ≤ n ∧ n ≤ 90 then some (n - 65)
  else if 97 ≤ n ∧ n ≤ 122 then some (26 + (n - 97))
  else if 48 ≤ n ∧ n ≤ 57 then some (52 + (n - 48))
  else if c = '+' then some 62
  else if c = '/' then some 63
  else none

theorem b64DecodeChar_encodeChar (i : Nat) (h : i < 64) :
    b64DecodeChar (b64EncodeChar i) = some i := by
  have key : ∀ j : Fin 64, b64DecodeChar (b64EncodeChar j.val) = some j.val := by decide
  exact key ⟨i, h⟩

theorem b64EncodeChar_ne_pad (i : Nat) (h : i < 64) : b64EncodeChar i ≠ '=' := by
  have key : ∀ j : Fin 64, b64EncodeChar j.val ≠ '=' := by decide
  exact key ⟨i, h⟩

theorem b64EncodeChar_not_newline (i : Nat) (h : i < 64) :
    b64EncodeChar i ≠ '\r' ∧ b64EncodeChar i ≠ '\n' := by
  have key : ∀ j : Fin 64, b64EncodeChar j.val ≠ '\r' ∧ b64EncodeChar j.val ≠ '\n' := by
    decide
  exact key ⟨i, h⟩

/-- Base64 encoding of a byte string, as produced by Go
`base64.StdEncoding.EncodeToString`. -/
def b64EncodeBytes : List Nat → List Char
  | [] => []
  | [a] => [b64EncodeChar (a / 4), b64EncodeChar (a % 4 * 16), '=', '=']
  | [a, b] =>
    [b64EncodeChar (a / 4), b64EncodeChar (a % 4 * 16 + b / 16),
      b64EncodeChar (b % 16 * 4), '=']
  | a :: b :: c :: rest =>
    b64EncodeChar (a / 4) :: b64EncodeChar (a % 4 * 16 + b / 16) ::
      b64EncodeChar (b % 16 * 4 + c / 64) :: b64EncodeChar (c % 64) ::
        b64EncodeBytes rest

/-- Decode a full (non-final) group of four base64 data characters. -/
def b64DecodeQuad (c1 c2 c3 c4 : Char) : Option (List Nat) := do
  let s1 ← b64DecodeChar c1
  let s2 ← b64DecodeChar c2
  let s3 ← b64DecodeChar c3
  let s4 ← b64DecodeChar c4
  some [s1 * 4 + s2 / 16, s2 % 16 * 16 + s3 / 4, s3 % 4 * 64 + s4]

/-- Decode base64 text already stripped of CR/LF, group by group. The final
group may carry one or two padding characters. -/
def b64DecodeCore : List Char → Option (List Nat)
  | [] => some []
  | c1 :: c2 :: c3 :: c4 :: rest =>
    if rest.isEmpty then
      if c4 = '=' then
        if c3 = '=' then do
          let s1 ← b64DecodeChar c1
          let s2 ← b64DecodeChar c2
          some [s1 * 4 + s2 / 16]
        else do
          let s1 ← b64DecodeChar c1
          let s2 ← b64DecodeChar c2
          let s3 ← b64DecodeChar c3
          some [s1 * 4 + s2 / 16, s2 % 16 * 16 + s3 / 4]
      else b64DecodeQuad c1 c2 c3 c4
    else do
      let bs ← b64DecodeQuad c1 c2 c3 c4
      let tail ← b64DecodeCore rest
      some (bs ++ tail)
  | _ => none

/-- Model of Go `base64.StdEncoding.DecodeString`: CR and LF are skipped,
everything else must be well-formed standard base64. -/
def b64Decode (s : List Char) : Option (List Nat) :=
  b64DecodeCore (s.filter (fun c => !(c == '\r' || c == '\n')))

theorem b64EncodeBytes_mem (bs : List Nat) (hb : ∀ b ∈ bs, b < 256) :
    ∀ c ∈ b64EncodeBytes bs, c = '=' ∨ ∃ i, i < 64 ∧ c = b64EncodeChar i := by
  induction bs using b64EncodeBytes.induct with
  | case1 => simp [b64EncodeBytes]
  | case2 a =>
    have ha : a < 256 := hb a (by simp)
    intro c hc
    simp only [b64EncodeBytes, List.mem_cons, List.not_mem_nil, or_false] at hc
    rcases hc with h | h | h | h
    · exact Or.inr ⟨a / 4, by omega, h⟩
    · exact Or.inr ⟨a % 4 * 16, by omega, h⟩
    · exact Or.inl h
    · exact Or.inl h
  | case3 a b =>
    have ha : a < 256 := hb a (by simp)
    have hb' : b < 256 := hb b (by simp)
    intro c hc
    simp only [b64EncodeBytes, List.mem_cons, List.not_mem_nil, or_false] at hc
    rcases hc with h | h | h | h
    · exact Or.inr ⟨a / 4, by omega, h⟩
    · exact Or.inr ⟨a % 4 * 16 + b / 16, by omega, h⟩
    · exact Or.inr ⟨b % 16 * 4, by omega, h⟩
    · exact Or.inl h
  | case4 a b c rest ih =>
    have ha : a < 256 := hb a (by simp)
    have hbb : b < 256 := hb b (by simp)
    have hcc : c < 256 := hb c (by simp)
    have hrest : ∀ x ∈ rest, x < 256 := fun x hx => hb x (by simp [hx])
    intro ch hch
    simp only [b64EncodeBytes, List.mem_cons] at hch
    rcases hch with h | h | h | h | h
    · exact Or.inr ⟨a / 4, by omega, h⟩
    · exact Or.inr ⟨a % 4 * 16 + b / 16, by omega, h⟩
    · exact Or.inr ⟨b % 16 * 4 + c / 64, by omega, h⟩
    · exact Or.inr ⟨c % 64, by omega, h⟩
    · exact ih hrest ch h

theorem b64EncodeBytes_filter (bs : List Nat) (hb : ∀ b ∈ bs, b < 256) :
    (b64EncodeBytes bs).filter (fun c => !(c == '\r' || c == '\n'))
      = b64EncodeBytes bs := by
  rw [List.filter_eq_self]
  intro c hc
  rcases b64EncodeBytes_mem bs hb c hc with h | ⟨i, hi, h⟩
  · subst h; decide
  · subst h
    have := b64EncodeChar_not_newline i hi
    simp only [Bool.or_eq_true, beq_iff_eq, Bool.not_eq_true'] at *
    simp [this.1, this.2]

theorem b64EncodeBytes_ne_nil (a : Nat) (l : List Nat) :
    b64EncodeBytes (a :: l) ≠ [] := by
  match l with
  | [] => simp [b64EncodeBytes]
  | [b] => simp [b64EncodeBytes]
  | b :: c :: rest => simp [b64EncodeBytes]

theorem b64DecodeCore_encode (bs : List Nat) (hb : ∀ b ∈ bs, b < 256) :
    b64DecodeCore (b64EncodeBytes bs) = some bs := by
  induction bs using b64EncodeBytes.induct with
  | case1 => rfl
  | case2 a =>
    have ha : a < 256 := hb a (by simp)
    have h1 : a / 4 < 64 := by omega
    have h2 : a % 4 * 16 < 64 := by omega
    simp only [b64EncodeBytes, b64DecodeCore, List.isEmpty_nil, if_true,
      b64DecodeChar_encodeChar _ h1, b64DecodeChar_encodeChar _ h2]
    simp only [Option.bind_eq_bind, Option.some_bind, Option.some.injEq]
    congr 1
    omega
  | case3 a b =>
    have ha : a < 256 := hb a (by simp)
    have hb' : b < 256 := hb b (by simp)
    have h1 : a / 4 < 64 := by omega
    have h2 : a % 4 * 16 + b / 16 < 64 := by omega
    have h3 : b % 16 * 4 < 64 := by omega
    have hne : b64EncodeChar (b % 16 * 4) ≠ '=' := b64EncodeChar_ne_pad _ h3
    simp only [b64EncodeBytes, b64DecodeCore, List.isEmpty_nil, if_true, hne,
      if_false, b64DecodeChar_encodeChar _ h1, b64DecodeChar_encodeChar _ h2,
      b64DecodeChar_encodeChar _ h3]
    simp only [Option.bind_eq_bind, Option.some_bind, Option.some.injEq,
      List.cons.injEq, and_true]
    exact ⟨by omega, by omega⟩
  | case4 a b c rest ih =>
    have ha : a < 256 := hb a (by simp)
    have hbb : b < 256 := hb b (by simp)
    have hcc : c < 256 := hb c (by simp)
    have hrest : ∀ x ∈ rest, x < 256 := fun x hx => hb x (by simp [hx])
    have h1 : a / 4 < 64 := by omega
    have h2 : a % 4 * 16 + b / 16 < 64 := by omega
    have h3 : b % 16 * 4 + c / 64 < 64 := by omega
    have h4 : c % 64 < 64 := by omega
    have hquad : b64DecodeQuad (b64EncodeChar (a / 4))
        (b64EncodeChar (a % 4 * 16 + b / 16)) (b64EncodeChar (b % 16 * 4 + c / 64))
        (b64EncodeChar (c % 64)) = some [a, b, c] := by
      simp only [b64DecodeQuad, b64DecodeChar_encodeChar _ h1,
        b64DecodeChar_encodeChar _ h2, b64DecodeChar_encodeChar _ h3,
        b64DecodeChar_encodeChar _ h4]
      simp only [Option.bind_eq_bind, Option.some_bind, Option.some.injEq,
        List.cons.injEq, and_true]
      exact ⟨by omega, by omega, by omega⟩
    match rest with
    | [] =>
      have hc4 : b64EncodeChar (c % 64) ≠ '=' := b64EncodeChar_ne_pad _ h4
      simp only [b64EncodeBytes, b64DecodeCore, List.isEmpty_nil, if_true, hc4,
        if_false]
      exact hquad
    | r :: rs =>
      have hne : b64EncodeBytes (r :: rs) ≠ [] := b64EncodeBytes_ne_nil r rs
      have hie : (b64EncodeBytes (r :: rs)).isEmpty = false := by
        simpa [List.isEmpty_iff] using hne
      simp only [b64EncodeBytes, b64DecodeCore, hie, Bool.false_eq_true, if_false]
      rw [hquad]
      have := ih hrest
      simp only [b64EncodeBytes] at this
      rw [this]
      rfl

/-- Round trip: decoding an encoded byte string returns it exactly. -/
theorem b64Decode_encode (bs : List Nat) (hb : ∀ b ∈ bs, b < 256) :
    b64Decode (b64EncodeBytes bs) = some bs := by
  unfold b64Decode
  rw [b64EncodeBytes_filter bs hb]
  exact b64DecodeCore_encode bs hb

/-! ### Share signing (`secrets/hash.go`)

HMAC-SHA256 (`crypto/hmac` with `crypto/sha256`) is an external primitive;
it enters the embedding as a function parameter `mac : key → message → tag`.
`constants.SignatureBytes = 32` is the tag length. -/

/-- Constant `SignatureBytes` from `constants/constants.go`. -/
def SignatureBytes : Nat := 32

/-- Constant `NonceBytes` from `constants/constants.go`. -/
def NonceBytes : Nat := 12

/-- Constant `EncryptionKeyBytes` from `constants/constants.go`. -/
def EncryptionKeyBytes : Nat := 32

/-- Embedding of `SignShare` (`secrets/hash.go`): append the HMAC tag of the
message to the message. -/
def SignShare (mac : List Nat → List Nat → List Nat) (key message : List Nat) :
    List Nat :=
  message ++ mac key message

/-- Embedding of `VerifyShare` (`secrets/hash.go`): reject inputs shorter than
the tag, split off the trailing 32 bytes, recompute the tag and compare
(`hmac.Equal` is constant-time byte equality). -/
def VerifyShare (mac : List Nat → List Nat → List Nat)
    (signedMessage key : List Nat) : Except String (List Nat) :=
  if signedMessage.length < SignatureBytes then
    .error "signed message too short"
  else
    let message := signedMessage.take (signedMessage.length - SignatureBytes)
    let signature := signedMessage.drop (signedMessage.length - SignatureBytes)
    if signature = mac key message then .ok message
    else .error "invalid signature"

theorem VerifyShare_SignShare (mac : List Nat → List Nat → List Nat)
    (key message : List Nat) (hlen : (mac key message).length = SignatureBytes) :
    VerifyShare mac (SignShare mac key message) key = .ok message := by
  have hlen' : (SignShare mac key message).length
      = message.length + SignatureBytes := by
    simp [SignShare, hlen]
  have hsub : (SignShare mac key message).length - SignatureBytes
      = message.length := by omega
  have htake : (SignShare mac key message).take message.length = message := by
    simp [SignShare]
  have hdrop : (SignShare mac key message).drop message.length
      = mac key message := by
    simp [SignShare]
  unfold VerifyShare
  rw [if_neg (by omega), hsub, htake, hdrop, if_pos rfl]

/-! ### Key shares and the sharing engine (`secrets/secret.go`)

The `bytemare/secret-sharing` library works over the Ristretto255 scalar
field, i.e. the integers modulo the prime group order; the embedding keeps
the modulus `p` as a parameter and uses `ZMod p`. A key share pairs the
share identifier (`1..n`) with the share's scalar value; `Encode`/`Decode`
of the library's wire format is modelled as a fixed-width little-endian
serialization (8 identifier bytes, 32 scalar bytes). -/

/-- Decoded key share: identifier plus scalar value. -/
structure KeyShare (p : Nat) where
  identifier : Nat
  value : ZMod p
deriving DecidableEq

/-- Scalar wire encoding (`Encode` on a Ristretto255 scalar): 32 bytes. -/
def encodeScalar (p : Nat) (x : ZMod p) : List Nat :=
  natToLE 32 x.val

/-- Wire encoding of a key share (`share.Encode()` in the library). -/
def keyShareEncode (p : Nat) (ks : KeyShare p) : List Nat :=
  natToLE 8 ks.identifier ++ encodeScalar p ks.value

/-- Wire decoding of a key share (`keyShare.Decode` in the library): a
fixed-length record; anything else is a decode error. -/
def keyShareDecode (p : Nat) (bs : List Nat) : Except String (KeyShare p) :=
  if bs.length = 40 then
    .ok ⟨leToNat (bs.take 8), ((leToNat (bs.drop 8) : Nat) : ZMod p)⟩
  else .error "failed to decode share"

theorem keyShareDecode_encode (p : Nat) [NeZero p] (hp : p ≤ 2 ^ 256)
    (ks : KeyShare p) (hid : ks.identifier < 2 ^ 64) :
    keyShareDecode p (keyShareEncode p ks) = .ok ks := by
  have hlen8 : (natToLE 8 ks.identifier).length = 8 := natToLE_length 8 _
  have hlen32 : (encodeScalar p ks.value).length = 32 := natToLE_length 32 _
  have hlen : (keyShareEncode p ks).length = 40 := by
    simp [keyShareEncode, hlen8, hlen32]
  have htake : (keyShareEncode p ks).take 8 = natToLE 8 ks.identifier := by
    have := List.take_left (natToLE 8 ks.identifier) (encodeScalar p ks.value)
    rwa [hlen8] at this
  have hdrop : (keyShareEncode p ks).drop 8 = encodeScalar p ks.value := by
    have := List.drop_left (natToLE 8 ks.identifier) (encodeScalar p ks.value)
    rwa [hlen8] at this
  have hidval : leToNat (natToLE 8 ks.identifier) = ks.identifier :=
    leToNat_natToLE 8 _ (by norm_num at hid ⊢; omega)
  have hvlt : ks.value.val < 256 ^ 32 := by
    have := ZMod.val_lt ks.value
    calc ks.value.val < p := this
      _ ≤ 2 ^ 256 := hp
      _ = 256 ^ 32 := by norm_num
  have hval : leToNat (encodeScalar p ks.value) = ks.value.val :=
    leToNat_natToLE 32 _ hvlt
  have hcast : ((ks.value.val : Nat) : ZMod p) = ks.value :=
    ZMod.natCast_rightInverse ks.value
  unfold keyShareDecode
  rw [if_pos hlen, htake, hdrop, hidval, hval, hcast]

/-- Embedding of `GetShare` (`secrets/secret.go`): base64-decode, verify the
trailing tag, then decode the verified payload as a key share. -/
def GetShare (p : Nat) (mac : List Nat → List Nat → List Nat)
    (shareStr : List Char) (signingKey : List Nat) :
    Except String (KeyShare p) := do
  let decodedShareBytes ← match b64Decode shareStr with
    | some bs => Except.ok bs
    | none => Except.error "failed to decode base64 share"
  let decodedShare ← VerifyShare mac decodedShareBytes signingKey
  keyShareDecode p decodedShare

/-- Horner evaluation of the sharing polynomial with coefficient list `cs`
(constant term first), exactly the scalar arithmetic the library performs to
produce share values. -/
def hornerEval (p : Nat) (cs : List (ZMod p)) (x : ZMod p) : ZMod p :=
  cs.foldr (fun c acc => c + x * acc) 0

/-- Embedding of `secretsharing.Shard`: split `secret` with a random
polynomial whose non-constant coefficients are the library's random draws
`coeffs`; share `i` (`0 ≤ i < shares`) has identifier `i+1` and value the
polynomial evaluated at `i+1`. The library rejects a zero threshold and a
threshold exceeding the share count. -/
def Shard (p : Nat) (secret : ZMod p) (coeffs : List (ZMod p))
    (threshold shares : Nat) : Except String (List (KeyShare p)) :=
  if threshold = 0 ∨ shares < threshold then .error "failed to split secret"
  else
    .ok ((List.range shares).map
      (fun i => ⟨i + 1, hornerEval p (secret :: coeffs) ((i + 1 : Nat) : ZMod p)⟩))

/-- Embedding of `secretsharing.CombineShares`: Lagrange interpolation at
zero over the shares' identifiers, using field inversion in the scalar
field. An empty share list is a library error. -/
def CombineShares (p : Nat) (shares : List (KeyShare p)) :
    Except String (ZMod p) :=
  if shares.isEmpty then .error "failed to combine shares"
  else
    .ok (∑ i : Fin shares.length,
      (shares.get i).value *
        ∏ j ∈ Finset.univ.erase i,
          (((shares.get j).identifier : ZMod p) *
            (((shares.get j).identifier : ZMod p)
              - ((shares.get i).identifier : ZMod p))⁻¹))

/-- Embedding of `CombineSecret` (`secrets/secret.go`): combine then encode
the recovered scalar. -/
def CombineSecret (p : Nat) (shares : List (KeyShare p)) :
    Except String (List Nat) := do
  let recovered ← CombineShares p shares
  .ok (encodeScalar p recovered)

/-- Result record of `CreateSecret` (`secrets/secret.go`). -/
structure SharedSecret (p : Nat) where
  VerificationKey : List Nat
  SigningKey : List Nat
  Shares : List (List Nat)
  Secret : List Nat
  Nonce : List Nat
deriving DecidableEq

/-- Embedding of `CreateSecret` (`secrets/secret.go`). Randomness is passed
in: `secretScalar` is the library's random wrapping scalar, `coeffs` the
random polynomial coefficients drawn by `Shard`, `signingKeyRand` and
`nonceRand` the two `GenerateRandomKey` draws, and `vkBytes` the encoded
verification key captured from the first share. Every share is signed with
the signing key. -/
def CreateSecret (p : Nat) (mac : List Nat → List Nat → List Nat)
    (threshold shares : Nat) (secretScalar : ZMod p) (coeffs : List (ZMod p))
    (vkBytes signingKeyRand nonceRand : List Nat) :
    Except String (SharedSecret p) := do
  let shareVals ← Shard p secretScalar coeffs threshold shares
  let signedShares := shareVals.map
    (fun sh => SignShare mac signingKeyRand (keyShareEncode p sh))
  .ok ⟨vkBytes, signingKeyRand, signedShares,
    encodeScalar p secretScalar, nonceRand⟩

/-! ### Correctness of Lagrange recombination -/

theorem hornerEval_cons (p : Nat) (c : ZMod p) (cs : List (ZMod p))
    (x : ZMod p) :
    hornerEval p (c :: cs) x = c + x * hornerEval p cs x := rfl

theorem hornerEval_eq_sum (p : Nat) (cs : List (ZMod p)) (x : ZMod p) :
    hornerEval p cs x = ∑ k ∈ Finset.range cs.length, cs.getD k 0 * x ^ k := by
  induction cs with
  | nil => simp [hornerEval]
  | cons c cs ih =>
    rw [hornerEval_cons, ih, List.length_cons, Finset.sum_range_succ',
      Finset.mul_sum]
    simp only [List.getD_cons_succ, List.getD_cons_zero, pow_zero, mul_one]
    rw [add_comm]
    congr 1
    exact Finset.sum_congr rfl fun k _ => by ring

theorem lagrange_sum_eq_eval_zero (p : Nat) [Fact p.Prime] {n : Nat}
    (f : Polynomial (ZMod p)) (v r : Fin n → ZMod p)
    (hinj : Function.Injective v) (hdeg : f.degree < n)
    (hr : ∀ i, f.eval (v i) = r i) :
    ∑ i : Fin n, r i * ∏ j ∈ Finset.univ.erase i, (v j * (v j - v i)⁻¹)
      = f.eval 0 := by
  have hvs : Set.InjOn v (Finset.univ : Finset (Fin n)) :=
    fun a _ b _ h => hinj h
  have hdeg' : f.degree < (Finset.univ : Finset (Fin n)).card := by
    simpa using hdeg
  have hf : f = Lagrange.interpolate Finset.univ v r :=
    Lagrange.eq_interpolate_of_eval_eq r hvs hdeg' (fun i _ => hr i)
  have heval : f.eval 0
      = ∑ i : Fin n, r i * (Lagrange.basis Finset.univ v i).eval 0 := by
    conv_lhs => rw [hf]
    rw [Lagrange.interpolate_apply, Polynomial.eval_finset_sum]
    exact Finset.sum_congr rfl fun i _ => by
      rw [Polynomial.eval_mul, Polynomial.eval_C]
  rw [heval]
  refine Finset.sum_congr rfl fun i _ => ?_
  congr 1
  rw [Lagrange.basis, Polynomial.eval_prod]
  refine Finset.prod_congr rfl fun j _ => ?_
  rw [Lagrange.basisDivisor, Polynomial.eval_mul, Polynomial.eval_C]
  simp only [Polynomial.eval_sub, Polynomial.eval_X, Polynomial.eval_C]
  rw [show v j - v i = -(v i - v j) by ring, inv_neg]
  ring

theorem CombineShares_eval (p : Nat) [Fact p.Prime] (t : Nat)
    (f : Polynomial (ZMod p)) (hdeg : f.degree < t)
    (l : List (KeyShare p)) (hlen : l.length = t) (hne : l ≠ [])
    (hid : ∀ ks ∈ l, ks.identifier < p)
    (hnd : (l.map KeyShare.identifier).Nodup)
    (hval : ∀ ks ∈ l, f.eval ((ks.identifier : Nat) : ZMod p) = ks.value) :
    CombineShares p l = .ok (f.eval 0) := by
  have hinj : Function.Injective
      (fun i : Fin l.length => (((l.get i).identifier : Nat) : ZMod p)) := by
    intro i j h
    have hi : (l.get i).identifier < p := hid _ (List.get_mem l i.val i.isLt)
    have hj : (l.get j).identifier < p := hid _ (List.get_mem l j.val j.isLt)
    have hval' : (l.get i).identifier = (l.get j).identifier := by
      have := congrArg ZMod.val h
      rwa [ZMod.val_cast_of_lt hi, ZMod.val_cast_of_lt hj] at this
    have hnd' : Function.Injective (l.map KeyShare.identifier).get :=
      List.nodup_iff_injective_get.mp hnd
    have hget : (l.map KeyShare.identifier).get (Fin.cast (by simp) i)
        = (l.map KeyShare.identifier).get (Fin.cast (by simp) j) := by
      simp only [List.get_eq_getElem, Fin.coe_cast, List.getElem_map]
      simp only [List.get_eq_getElem] at hval'
      exact hval'
    have := hnd' hget
    exact Fin.ext (by simpa [Fin.ext_iff] using this)
  have hemp : l.isEmpty = false := by
    simpa [List.isEmpty_iff] using hne
  unfold CombineShares
  rw [hemp]
  simp only [Bool.false_eq_true, if_false, Except.ok.injEq]
  have hdeg' : f.degree < l.length := by rw [hlen]; exact hdeg
  have := lagrange_sum_eq_eval_zero p f
    (fun i : Fin l.length => (((l.get i).identifier : Nat) : ZMod p))
    (fun i : Fin l.length => (l.get i).value)
    hinj hdeg' (fun i => hval _ (List.get_mem l i.val i.isLt))
  exact this

/-- The polynomial underlying `Shard p secret coeffs`: coefficient `k` is
the `k`-th entry of `secret :: coeffs`. -/
noncomputable def shardPoly (p : Nat) (secret : ZMod p)
    (coeffs : List (ZMod p)) : Polynomial (ZMod p) :=
  ∑ i : Fin (coeffs.length + 1),
    Polynomial.C ((secret :: coeffs).getD i 0) * Polynomial.X ^ (i : Nat)

theorem shardPoly_degree (p : Nat) [Fact p.Prime] (secret : ZMod p)
    (coeffs : List (ZMod p)) :
    (shardPoly p secret coeffs).degree < coeffs.length + 1 := by
  unfold shardPoly
  exact_mod_cast Polynomial.degree_sum_fin_lt _

theorem shardPoly_eval (p : Nat) (secret : ZMod p) (coeffs : List (ZMod p))
    (x : ZMod p) :
    (shardPoly p secret coeffs).eval x = hornerEval p (secret :: coeffs) x := by
  unfold shardPoly
  rw [hornerEval_eq_sum, Polynomial.eval_finset_sum, List.length_cons,
    ← Fin.sum_univ_eq_sum_range (fun k => (secret :: coeffs).getD k 0 * x ^ k)]
  exact Finset.sum_congr rfl fun i _ => by
    rw [Polynomial.eval_mul, Polynomial.eval_C, Polynomial.eval_pow,
      Polynomial.eval_X]

theorem shardPoly_eval_zero (p : Nat) [NeZero p] (secret : ZMod p)
    (coeffs : List (ZMod p)) :
    (shardPoly p secret coeffs).eval 0 = secret := by
  rw [shardPoly_eval, hornerEval_cons]
  simp

theorem CombineShares_select (p : Nat) [Fact p.Prime]
    (secret : ZMod p) (coeffs : List (ZMod p)) (n : Nat)
    (hnp : n < p) (sel : List Nat) (hsel : sel.Nodup)
    (hne : sel ≠ []) (hmem : ∀ i ∈ sel, i < n)
    (hlen : sel.length = coeffs.length + 1) :
    CombineShares p (sel.map (fun i =>
        (⟨i + 1, hornerEval p (secret :: coeffs) ((i + 1 : Nat) : ZMod p)⟩ :
          KeyShare p)))
      = .ok secret := by
  haveI : NeZero p := ⟨(Fact.out : p.Prime).ne_zero⟩
  have hres := CombineShares_eval p (coeffs.length + 1)
    (shardPoly p secret coeffs) (shardPoly_degree p secret coeffs)
    (sel.map (fun i =>
      (⟨i + 1, hornerEval p (secret :: coeffs) ((i + 1 : Nat) : ZMod p)⟩ :
        KeyShare p)))
    (by simpa using hlen)
    (by simpa using hne)
    (by
      intro ks hks
      simp only [List.mem_map] at hks
      obtain ⟨i, hi, rfl⟩ := hks
      have h2 := hmem i hi
      show i + 1 < p
      omega)
    (by
      rw [List.map_map]
      refine List.Nodup.map ?_ hsel
      intro a b hab
      simpa using hab)
    (by
      intro ks hks
      simp only [List.mem_map] at hks
      obtain ⟨i, _, rfl⟩ := hks
      exact shardPoly_eval p secret coeffs _)
  rw [hres, shardPoly_eval_zero]

/-! ### Claim theorems for the signing layer -/

/-- Concrete 32-byte MAC used by witnesses to instantiate the HMAC-SHA256
parameter. -/
def macConst : List Nat → List Nat → List Nat :=
  fun _ _ => List.replicate 32 0

/-- C10: for every key and every message (including the empty message),
`VerifyShare (SignShare key message) key` succeeds and returns exactly the
original message; signing leaves the payload bytes unchanged at the front
and verification strips exactly the 32-byte tag that signing appended.
Stated for an arbitrary deterministic MAC with 32-byte tags, which is the
contract of HMAC-SHA256. -/
theorem C10_VerifyShare_SignShare_roundtrip
    (mac : List Nat → List Nat → List Nat) (key message : List Nat)
    (hlen : (mac key message).length = SignatureBytes) :
    VerifyShare mac (SignShare mac key message) key = .ok message
      ∧ (SignShare mac key message).take message.length = message
      ∧ (SignShare mac key message).length = message.length + 32 := by
  refine ⟨VerifyShare_SignShare mac key message hlen, by simp [SignShare], ?_⟩
  simp [SignShare, hlen, SignatureBytes]

/-- Witness for C10 at a concrete MAC, key and message. -/
theorem C10_VerifyShare_SignShare_roundtrip_witness :
    (macConst [1, 2] [3, 4, 5]).length = SignatureBytes
      ∧ (VerifyShare macConst (SignShare macConst [1, 2] [3, 4, 5]) [1, 2]
            = .ok [3, 4, 5]
          ∧ (SignShare macConst [1, 2] [3, 4, 5]).take 3 = [3, 4, 5]
          ∧ (SignShare macConst [1, 2] [3, 4, 5]).length = 3 + 32) :=
  ⟨by decide, C10_VerifyShare_SignShare_roundtrip macConst [1, 2] [3, 4, 5]
    (by decide)⟩

/-- C6: `GetShare` fails on every input that is not valid base64, on every
decoded share whose trailing 32-byte tag does not match the MAC of its
payload under the signing key (in particular on a valid share with one tag
byte changed), and on every verified payload that does not decode as a key
share; and `VerifyShare` rejects every input shorter than the 32-byte tag
outright. -/
theorem C6_GetShare_rejects_invalid (p : Nat)
    (mac : List Nat → List Nat → List Nat) (signingKey : List Nat) :
    (∀ s : List Char, b64Decode s = none →
        GetShare p mac s signingKey = .error "failed to decode base64 share")
    ∧ (∀ s bs, b64Decode s = some bs →
        bs.drop (bs.length - SignatureBytes)
            ≠ mac signingKey (bs.take (bs.length - SignatureBytes)) →
        ∃ e, GetShare p mac s signingKey = .error e)
    ∧ (∀ (message : List Nat) (j v : Nat),
        (∀ b ∈ message, b < 256) →
        (∀ b ∈ mac signingKey message, b < 256) →
        (mac signingKey message).length = SignatureBytes →
        j < SignatureBytes → v < 256 →
        v ≠ (mac signingKey message).getD j 0 →
        ∃ e, GetShare p mac
            (b64EncodeBytes (message ++ (mac signingKey message).set j v))
            signingKey = .error e)
    ∧ (∀ s bs msg, b64Decode s = some bs →
        VerifyShare mac bs signingKey = .ok msg → msg.length ≠ 40 →
        ∃ e, GetShare p mac s signingKey = .error e)
    ∧ (∀ signed : List Nat, signed.length < SignatureBytes →
        VerifyShare mac signed signingKey = .error "signed message too short") := by
  have herr : ∀ s bs, b64Decode s = some bs →
      bs.drop (bs.length - SignatureBytes)
          ≠ mac signingKey (bs.take (bs.length - SignatureBytes)) →
      ∃ e, GetShare p mac s signingKey = .error e := by
    intro s bs hdec hne
    by_cases hlt : bs.length < SignatureBytes
    · exact ⟨"signed message too short", by
        simp [GetShare, hdec, VerifyShare, hlt, bind, Except.bind]⟩
    · exact ⟨"invalid signature", by
        simp [GetShare, hdec, VerifyShare, hlt, hne, bind, Except.bind]⟩
  refine ⟨?_, herr, ?_, ?_, ?_⟩
  · intro s hdec
    simp [GetShare, hdec, bind, Except.bind]
  · intro message j v hmb htb htl hj hv hne
    set tag := mac signingKey message with htag
    have hlenset : (tag.set j v).length = SignatureBytes := by
      simp [htl]
    have hbytes : ∀ b ∈ message ++ tag.set j v, b < 256 := by
      intro b hb
      rcases List.mem_append.mp hb with h | h
      · exact hmb b h
      · rcases List.mem_or_eq_of_mem_set h with h2 | h2
        · exact htb b h2
        · omega
    have hdec : b64Decode (b64EncodeBytes (message ++ tag.set j v))
        = some (message ++ tag.set j v) := b64Decode_encode _ hbytes
    refine herr _ _ hdec ?_
    have hlen : (message ++ tag.set j v).length
        = message.length + SignatureBytes := by
      simp [hlenset]
    have hsub : (message ++ tag.set j v).length - SignatureBytes
        = message.length := by omega
    rw [hsub]
    have hdrop : (message ++ tag.set j v).drop message.length = tag.set j v :=
      List.drop_left _ _
    have htake : (message ++ tag.set j v).take message.length = message :=
      List.take_left _ _
    rw [hdrop, htake, ← htag]
    intro hcontra
    have hjlt : j < tag.length := by omega
    have hjlt' : j < (tag.set j v).length := by simpa using hjlt
    have h1 : (tag.set j v).getD j 0 = v := by
      rw [List.getD_eq_getElem _ 0 hjlt']
      exact List.getElem_set_self hjlt'
    have h2 : (tag.set j v).getD j 0 = tag.getD j 0 := by rw [hcontra]
    exact hne (by omega)
  · intro s bs msg hdec hver hlen40
    refine ⟨"failed to decode share", ?_⟩
    simp [GetShare, hdec, hver, keyShareDecode, hlen40, bind, Except.bind]
  · intro signed hlt
    simp [VerifyShare, hlt]

/-- Witness for C6: each rejection branch exercised at a concrete input. -/
theorem C6_GetShare_rejects_invalid_witness :
    (b64Decode ['!'] = none
      ∧ GetShare 101 macConst ['!'] [] = .error "failed to decode base64 share")
    ∧ (∃ e, GetShare 101 macConst
        (b64EncodeBytes (List.replicate 33 1)) [] = .error e)
    ∧ (∃ e, GetShare 101 macConst
        (b64EncodeBytes ([7] ++ (macConst [] [7]).set 0 1)) [] = .error e)
    ∧ (∃ e, GetShare 101 macConst
        (b64EncodeBytes (SignShare macConst [] [1, 2, 3])) [] = .error e)
    ∧ VerifyShare macConst [5] [] = .error "signed message too short" := by
  have h := C6_GetShare_rejects_invalid 101 macConst []
  refine ⟨⟨by decide, h.1 ['!'] (by decide)⟩, ?_, ?_, ?_, ?_⟩
  · exact h.2.1 (b64EncodeBytes (List.replicate 33 1)) (List.replicate 33 1)
      (by decide) (by decide)
  · exact h.2.2.1 [7] 0 1 (by decide) (by decide) (by decide) (by decide)
      (by decide) (by decide)
  · exact h.2.2.2.1 (b64EncodeBytes (SignShare macConst [] [1, 2, 3]))
      (SignShare macConst [] [1, 2, 3]) [1, 2, 3] (by decide) (by rfl)
      (by decide)
  · exact h.2.2.2.2 [5] (by decide)

/-- C2: for `1 ≤ threshold ≤ n ≤ 100`, `CreateSecret` yields a share list of
exactly `n` signed shares; every selected share, base64-encoded the way
`Setup` prints it, decodes via `GetShare` under the returned signing key;
and `CombineSecret` of any subset of exactly `threshold` decoded shares
returns the returned `Secret` bit for bit. The scalar-field modulus `p` is
a parameter (the code instantiates it with the Ristretto255 group order, a
prime larger than `2^252` and at most `2^256`); the MAC is an arbitrary
deterministic function with 32-byte tags, the contract of HMAC-SHA256. -/
theorem C2_CreateSecret_CombineSecret (p : Nat) [Fact p.Prime]
    (hp100 : 100 < p) (hp256 : p ≤ 2 ^ 256)
    (threshold n : Nat) (ht : 1 ≤ threshold) (htn : threshold ≤ n)
    (hn : n ≤ 100)
    (mac : List Nat → List Nat → List Nat)
    (hmacLen : ∀ k m, (mac k m).length = SignatureBytes)
    (hmacByte : ∀ k m b, b ∈ mac k m → b < 256)
    (secretScalar : ZMod p) (coeffs : List (ZMod p))
    (hc : coeffs.length + 1 = threshold)
    (vkBytes signingKeyRand nonceRand : List Nat)
    (sel : List Nat) (hsel : sel.Nodup) (hlen : sel.length = threshold)
    (hmem : ∀ i ∈ sel, i < n) :
    ∃ res : SharedSecret p,
      CreateSecret p mac threshold n secretScalar coeffs vkBytes
          signingKeyRand nonceRand = .ok res
      ∧ res.Shares.length = n
      ∧ (∀ i ∈ sel,
          GetShare p mac (b64EncodeBytes (res.Shares.getD i []))
              res.SigningKey
            = .ok ⟨i + 1, hornerEval p (secretScalar :: coeffs)
                ((i + 1 : Nat) : ZMod p)⟩)
      ∧ CombineSecret p (sel.map (fun i =>
            (⟨i + 1, hornerEval p (secretScalar :: coeffs)
              ((i + 1 : Nat) : ZMod p)⟩ : KeyShare p)))
          = .ok res.Secret := by
  haveI : NeZero p := ⟨(Fact.out : p.Prime).ne_zero⟩
  have hps : Shard p secretScalar coeffs threshold n
      = .ok ((List.range n).map (fun i =>
          (⟨i + 1, hornerEval p (secretScalar :: coeffs)
            ((i + 1 : Nat) : ZMod p)⟩ : KeyShare p))) := by
    unfold Shard
    rw [if_neg (by omega)]
  refine ⟨⟨vkBytes, signingKeyRand,
    ((List.range n).map (fun i =>
        (⟨i + 1, hornerEval p (secretScalar :: coeffs)
          ((i + 1 : Nat) : ZMod p)⟩ : KeyShare p))).map
      (fun sh => SignShare mac signingKeyRand (keyShareEncode p sh)),
    encodeScalar p secretScalar, nonceRand⟩, ?_, ?_, ?_, ?_⟩
  · simp only [CreateSecret, hps, bind, Except.bind]
  · simp
  · intro i hi
    have hin : i < n := hmem i hi
    set ksi : KeyShare p :=
      ⟨i + 1, hornerEval p (secretScalar :: coeffs) ((i + 1 : Nat) : ZMod p)⟩
      with hksi
    have hshare :
        ((((List.range n).map (fun i =>
            (⟨i + 1, hornerEval p (secretScalar :: coeffs)
              ((i + 1 : Nat) : ZMod p)⟩ : KeyShare p))).map
          (fun sh => SignShare mac signingKeyRand (keyShareEncode p sh))).getD
            i [])
          = SignShare mac signingKeyRand (keyShareEncode p ksi) := by
      rw [List.getD_eq_getElem _ _ (by simpa using hin)]
      simp [hksi]
    have hbytes : ∀ b ∈ SignShare mac signingKeyRand (keyShareEncode p ksi),
        b < 256 := by
      intro b hb
      rcases List.mem_append.mp hb with h | h
      · rcases List.mem_append.mp h with h2 | h2
        · exact natToLE_lt 8 _ b h2
        · exact natToLE_lt 32 _ b h2
      · exact hmacByte _ _ b h
    have hdec := b64Decode_encode _ hbytes
    show GetShare p mac _ _ = _
    rw [hshare]
    simp only [GetShare, hdec, bind, Except.bind]
    rw [VerifyShare_SignShare _ _ _ (hmacLen _ _)]
    exact keyShareDecode_encode p hp256 ksi (by show i + 1 < 2 ^ 64; norm_num; omega)
  · have hcomb := CombineShares_select p secretScalar coeffs n (by omega)
      sel hsel
      (by
        intro hnil
        rw [hnil] at hlen
        simp at hlen
        omega)
      hmem (by omega)
    simp only [CombineSecret, hcomb, bind, Except.bind]

/-- Witness for C2: modulus `101`, threshold `2` of `3` shares, shares `0`
and `2` selected. -/
theorem C2_CreateSecret_CombineSecret_witness :
    ∃ res : SharedSecret 101,
      CreateSecret 101 macConst 2 3 7 [5] [] [] [] = .ok res
      ∧ res.Shares.length = 3
      ∧ (∀ i ∈ [0, 2],
          GetShare 101 macConst (b64EncodeBytes (res.Shares.getD i []))
              res.SigningKey
            = .ok ⟨i + 1, hornerEval 101 (7 :: [5]) ((i + 1 : Nat) : ZMod 101)⟩)
      ∧ CombineSecret 101 ([0, 2].map (fun i =>
            (⟨i + 1, hornerEval 101 (7 :: [5])
              ((i + 1 : Nat) : ZMod 101)⟩ : KeyShare 101)))
          = .ok res.Secret := by
  haveI : Fact (Nat.Prime 101) := ⟨by norm_num⟩
  exact C2_CreateSecret_CombineSecret 101 (by norm_num) (by norm_num)
    2 3 (by norm_num) (by norm_num) (by norm_num)
    macConst (fun _ _ => rfl)
    (fun k m b hb => by
      have := List.eq_of_mem_replicate hb
      omega)
    7 [5] rfl [] [] [] [0, 2] (by decide) rfl (by decide)

/-! ### File system model

The services operate through `afero.Fs`; a file system is embedded as a
total map from path to optional byte contents. File modes (`0600`) are a
permission effect outside this byte-level model. -/

/-- File system state: contents by path. -/
def Fs : Type := String → Option (List Nat)

/-- Writing a file (`afero.WriteFile`): replaces the contents at `path`. -/
def fsWrite (fs : Fs) (path : String) (content : List Nat) : Fs :=
  fun q => if q = path then some content else fs q

/-- Removing a file (`fs.Remove`): clears the contents at `path`. -/
def fsRemove (fs : Fs) (path : String) : Fs :=
  fun q => if q = path then none else fs q

theorem fsWrite_self (fs : Fs) (path : String) (content : List Nat) :
    fsWrite fs path content path = some content := by
  simp [fsWrite]

theorem fsWrite_other (fs : Fs) (path q : String) (content : List Nat)
    (h : q ≠ path) : fsWrite fs path content q = fs q := by
  simp [fsWrite, h]

theorem fsRemove_other (fs : Fs) (path q : String) (h : q ≠ path) :
    fsRemove fs path q = fs q := by
  simp [fsRemove, h]

/-! ### Envelope cipher (`encryption/encryption.go`)

AES-256-GCM (`crypto/aes` + `crypto/cipher`) and `encoding/json` are
external; they enter as parameters `sealf`/`opn` (the AEAD, keyed by the
trimmed key and nonce) and `marshal`/`unmarshal` (the envelope codec),
constrained in the theorems by their library contracts. `gcm.NonceSize()`
is 12 for AES-GCM; `generatePadding`'s random draw is the `padding`
argument. -/

/-- Envelope `encryptionData` from `encryption/encryption.go`. -/
structure EncryptionData where
  Plaintext : List Nat
  Padding : List Nat
deriving DecidableEq

/-- Embedding of `trimKey`: error when shorter than `length`, otherwise the
first `length` bytes. -/
def trimKey (key : List Nat) (length : Nat) : Except String (List Nat) :=
  if key.length < length then .error "key too short"
  else .ok (key.take length)

/-- Nonce size of AES-GCM (`gcm.NonceSize()`). -/
def gcmNonceSize : Nat := 12

/-- Embedding of `encryptData`: trim the key to 32 bytes and the nonce to
the GCM nonce size, then sealf. -/
def encryptData (sealf : List Nat → List Nat → List Nat → List Nat)
    (data key nonce : List Nat) : Except String (List Nat) := do
  let key ← trimKey key EncryptionKeyBytes
  let nonce ← trimKey nonce gcmNonceSize
  .ok (sealf key nonce data)

/-- Embedding of `Service.EncryptFile`: read the input, wrap it with the
random padding in an envelope, serialize, encrypt, write the ciphertext.
On error nothing is written. -/
def EncryptFile (sealf : List Nat → List Nat → List Nat → List Nat)
    (marshal : EncryptionData → List Nat)
    (fs : Fs) (inputPath outputPath : String) (key nonce padding : List Nat) :
    Fs × Except String Unit :=
  match fs inputPath with
  | none => (fs, .error "failed to read input file")
  | some fileBytes =>
    let envelope : EncryptionData := ⟨fileBytes, padding⟩
    let envelopeJSON := marshal envelope
    match encryptData sealf envelopeJSON key nonce with
    | .error e => (fs, .error e)
    | .ok ciphertext => (fsWrite fs outputPath ciphertext, .ok ())

/-- Embedding of `Service.DecryptFile`: read the ciphertext, trim key and
nonce, GCM-open (authentication failure is a hard error), deserialize the
envelope, write only the plaintext field. On error nothing is written. -/
def DecryptFile (opn : List Nat → List Nat → List Nat → Option (List Nat))
    (unmarshal : List Nat → Option EncryptionData)
    (fs : Fs) (inputPath outputPath : String) (key nonce : List Nat) :
    Fs × Except String Unit :=
  match fs inputPath with
  | none => (fs, .error "failed to read input file")
  | some ciphertext =>
    match trimKey key EncryptionKeyBytes with
    | .error e => (fs, .error e)
    | .ok key =>
      match trimKey nonce gcmNonceSize with
      | .error e => (fs, .error e)
      | .ok nonce =>
        match opn key nonce ciphertext with
        | none => (fs, .error "failed to decrypt file")
        | some plaintext =>
          match unmarshal plaintext with
          | none => (fs, .error "failed to deserialize encryption data")
          | some envelope => (fsWrite fs outputPath envelope.Plaintext, .ok ())

/-- C1: for every plaintext `P` (including the empty one), every key of at
least 32 bytes and every nonce of at least 12 bytes, encrypting a file
containing `P` and decrypting the result under the same key and nonce
writes an output file whose contents are exactly `P`. The AEAD and the
envelope codec are arbitrary functions satisfying the round-trip contracts
of `crypto/cipher` GCM and `encoding/json`. -/
theorem C1_EncryptFile_DecryptFile_roundtrip
    (sealf : List Nat → List Nat → List Nat → List Nat)
    (opn : List Nat → List Nat → List Nat → Option (List Nat))
    (marshal : EncryptionData → List Nat)
    (unmarshal : List Nat → Option EncryptionData)
    (hso : ∀ k nn d, opn k nn (sealf k nn d) = some d)
    (hmu : ∀ e, unmarshal (marshal e) = some e)
    (fs : Fs) (inputPath encPath outPath : String)
    (P key nonce padding : List Nat)
    (hin : fs inputPath = some P)
    (hkey : EncryptionKeyBytes ≤ key.length)
    (hnonce : gcmNonceSize ≤ nonce.length) :
    ∃ fs1 fs2,
      EncryptFile sealf marshal fs inputPath encPath key nonce padding
          = (fs1, .ok ())
      ∧ DecryptFile opn unmarshal fs1 encPath outPath key nonce
          = (fs2, .ok ())
      ∧ fs2 outPath = some P := by
  have htk : trimKey key EncryptionKeyBytes = .ok (key.take EncryptionKeyBytes) := by
    unfold trimKey
    rw [if_neg (by omega)]
  have htn : trimKey nonce gcmNonceSize = .ok (nonce.take gcmNonceSize) := by
    unfold trimKey
    rw [if_neg (by omega)]
  set ct := sealf (key.take EncryptionKeyBytes) (nonce.take gcmNonceSize)
    (marshal ⟨P, padding⟩) with hct
  refine ⟨fsWrite fs encPath ct, fsWrite (fsWrite fs encPath ct) outPath P,
    ?_, ?_, ?_⟩
  · unfold EncryptFile
    rw [hin]
    simp only [encryptData, htk, htn, bind, Except.bind, ← hct]
  · unfold DecryptFile
    rw [fsWrite_self]
    simp only [htk, htn, hct, hso, hmu]
  · exact fsWrite_self _ _ _

/-- Trivial AEAD used by witnesses: the ciphertext is the plaintext. -/
def sealId : List Nat → List Nat → List Nat → List Nat := fun _ _ d => d

/-- Trivial AEAD opener matching `sealId`. -/
def openId : List Nat → List Nat → List Nat → Option (List Nat) :=
  fun _ _ c => some c

/-- Length-prefixed envelope codec used by witnesses. -/
def marshalPair (e : EncryptionData) : List Nat :=
  e.Plaintext.length :: (e.Plaintext ++ e.Padding)

/-- Decoder matching `marshalPair`. -/
def unmarshalPair : List Nat → Option EncryptionData
  | [] => none
  | n :: rest => some ⟨rest.take n, rest.drop n⟩

theorem unmarshalPair_marshalPair (e : EncryptionData) :
    unmarshalPair (marshalPair e) = some e := by
  obtain ⟨pt, pad⟩ := e
  simp [marshalPair, unmarshalPair]

/-- Single-file file system used by witnesses. -/
def fsOne : Fs := fun q => if q = "in" then some [1, 2, 3] else none

/-- Witness for C1 at a concrete file system, key and nonce. -/
theorem C1_EncryptFile_DecryptFile_roundtrip_witness :
    ∃ fs1 fs2,
      EncryptFile sealId marshalPair fsOne "in" "enc"
          (List.replicate 32 9) (List.replicate 12 8) [4, 4] = (fs1, .ok ())
      ∧ DecryptFile openId unmarshalPair fs1 "enc" "out"
          (List.replicate 32 9) (List.replicate 12 8) = (fs2, .ok ())
      ∧ fs2 "out" = some [1, 2, 3] :=
  C1_EncryptFile_DecryptFile_roundtrip sealId openId marshalPair unmarshalPair
    (fun _ _ _ => rfl) unmarshalPair_marshalPair fsOne "in" "enc" "out"
    [1, 2, 3] (List.replicate 32 9) (List.replicate 12 8) [4, 4]
    (by decide) (by decide) (by decide)

theorem trimKey_congr (key₁ key₂ : List Nat) (len : Nat)
    (h : key₁.take len = key₂.take len) :
    trimKey key₁ len = trimKey key₂ len := by
  have hlen : min len key₁.length = min len key₂.length := by
    have := congrArg List.length h
    simpa using this
  unfold trimKey
  by_cases h1 : key₁.length < len
  · rw [if_pos h1, if_pos (by omega)]
  · rw [if_neg h1, if_neg (by omega), h]

theorem encryptData_short (sealf : List Nat → List Nat → List Nat → List Nat)
    (data key nonce : List Nat)
    (h : key.length < EncryptionKeyBytes ∨ nonce.length < gcmNonceSize) :
    encryptData sealf data key nonce = .error "key too short" := by
  by_cases hk : key.length < EncryptionKeyBytes
  · simp [encryptData, trimKey, hk, bind, Except.bind]
  · have hn : nonce.length < gcmNonceSize := by
      rcases h with h | h
      · omega
      · exact h
    simp [encryptData, trimKey, hk, hn, bind, Except.bind]

/-- C7: a key shorter than 32 bytes or a nonce shorter than the GCM nonce
size (12) makes both `EncryptFile` and `DecryptFile` fail with no file
written; an input of at least the required length never fails the length
check and is truncated to exactly its first required-length bytes, so two
keys (or nonces) agreeing on that leading part encrypt and decrypt
identically. -/
theorem C7_key_nonce_validation
    (sealf : List Nat → List Nat → List Nat → List Nat)
    (opn : List Nat → List Nat → List Nat → Option (List Nat))
    (marshal : EncryptionData → List Nat)
    (unmarshal : List Nat → Option EncryptionData)
    (fs : Fs) (inputPath outputPath : String) :
    (∀ key nonce padding : List Nat,
        key.length < EncryptionKeyBytes ∨ nonce.length < gcmNonceSize →
        (∃ e, EncryptFile sealf marshal fs inputPath outputPath key nonce
            padding = (fs, .error e))
          ∧ ∃ e, DecryptFile opn unmarshal fs inputPath outputPath key nonce
              = (fs, .error e))
    ∧ (∀ key : List Nat, EncryptionKeyBytes ≤ key.length →
        trimKey key EncryptionKeyBytes = .ok (key.take EncryptionKeyBytes))
    ∧ (∀ nonce : List Nat, gcmNonceSize ≤ nonce.length →
        trimKey nonce gcmNonceSize = .ok (nonce.take gcmNonceSize))
    ∧ (∀ key₁ key₂ nonce₁ nonce₂ padding : List Nat,
        key₁.take EncryptionKeyBytes = key₂.take EncryptionKeyBytes →
        nonce₁.take gcmNonceSize = nonce₂.take gcmNonceSize →
        EncryptFile sealf marshal fs inputPath outputPath key₁ nonce₁ padding
            = EncryptFile sealf marshal fs inputPath outputPath key₂ nonce₂
              padding
          ∧ DecryptFile opn unmarshal fs inputPath outputPath key₁ nonce₁
            = DecryptFile opn unmarshal fs inputPath outputPath key₂
              nonce₂) := by
  refine ⟨?_, ?_, ?_, ?_⟩
  · intro key nonce padding hor
    constructor
    · match hfs : fs inputPath with
      | none => exact ⟨"failed to read input file", by
          unfold EncryptFile
          rw [hfs]⟩
      | some fileBytes =>
        exact ⟨"key too short", by
          simp only [EncryptFile, hfs, encryptData_short sealf _ key nonce hor]⟩
    · match hfs : fs inputPath with
      | none => exact ⟨"failed to read input file", by
          unfold DecryptFile
          rw [hfs]⟩
      | some ciphertext =>
        by_cases hk : key.length < EncryptionKeyBytes
        · exact ⟨"key too short", by
            simp [DecryptFile, hfs, trimKey, hk]⟩
        · have hn : nonce.length < gcmNonceSize := by
            rcases hor with h | h
            · omega
            · exact h
          exact ⟨"key too short", by
            simp [DecryptFile, hfs, trimKey, hk, hn]⟩
  · intro key hk
    unfold trimKey
    rw [if_neg (by omega)]
  · intro nonce hn
    unfold trimKey
    rw [if_neg (by omega)]
  · intro key₁ key₂ nonce₁ nonce₂ padding hkeq hneq
    have hk := trimKey_congr key₁ key₂ EncryptionKeyBytes hkeq
    have hn := trimKey_congr nonce₁ nonce₂ gcmNonceSize hneq
    constructor
    · match hfs : fs inputPath with
      | none => simp only [EncryptFile, hfs]
      | some fileBytes =>
        have heq : encryptData sealf (marshal ⟨fileBytes, padding⟩) key₁ nonce₁
            = encryptData sealf (marshal ⟨fileBytes, padding⟩) key₂ nonce₂ := by
          unfold encryptData
          rw [hk, hn]
        simp only [EncryptFile, hfs, heq]
    · match hfs : fs inputPath with
      | none => simp only [DecryptFile, hfs]
      | some ciphertext => simp only [DecryptFile, hfs, hk, hn]

/-- Witness for C7: each validation branch at concrete keys and nonces. -/
theorem C7_key_nonce_validation_witness :
    ((∃ e, EncryptFile sealId marshalPair fsOne "in" "out"
          (List.replicate 16 0) (List.replicate 12 0) [] = (fsOne, .error e))
      ∧ ∃ e, DecryptFile openId unmarshalPair fsOne "in" "out"
          (List.replicate 16 0) (List.replicate 12 0) = (fsOne, .error e))
    ∧ trimKey (List.replicate 40 2) EncryptionKeyBytes
        = .ok ((List.replicate 40 2).take EncryptionKeyBytes)
    ∧ trimKey (List.replicate 15 3) gcmNonceSize
        = .ok ((List.replicate 15 3).take gcmNonceSize)
    ∧ (EncryptFile sealId marshalPair fsOne "in" "out"
          (List.replicate 32 1) (List.replicate 12 2) [0]
        = EncryptFile sealId marshalPair fsOne "in" "out"
            (List.replicate 32 1 ++ [9]) (List.replicate 12 2 ++ [7]) [0]
      ∧ DecryptFile openId unmarshalPair fsOne "in" "out"
          (List.replicate 32 1) (List.replicate 12 2)
        = DecryptFile openId unmarshalPair fsOne "in" "out"
            (List.replicate 32 1 ++ [9]) (List.replicate 12 2 ++ [7])) := by
  have h := C7_key_nonce_validation sealId openId marshalPair unmarshalPair
    fsOne "in" "out"
  refine ⟨h.1 _ _ [] (Or.inl (by decide)), h.2.1 _ (by decide),
    h.2.2.1 _ (by decide), ?_⟩
  have h4 := h.2.2.2 (List.replicate 32 1) (List.replicate 32 1 ++ [9])
    (List.replicate 12 2) (List.replicate 12 2 ++ [7]) [0]
    (by decide) (by decide)
  exact h4

/-! ### Persisted state (`state/state.go`)

The JSON codec (`encoding/json`) is a parameter pair
`marshalState`/`unmarshalState` constrained by its round-trip contract. -/

/-- Application state persisted by Setup (`state/state.go`). -/
structure State where
  VerificationKey : List Nat
  SigningKey : List Nat
  Nonce : List Nat
  Threshold : Nat
deriving DecidableEq

/-- Embedding of `WriteStateToFile`: serialize the state and write it.
Directory creation and write errors do not arise in the map file system. -/
def WriteStateToFile (marshalState : State → List Nat) (fs : Fs)
    (verificationKey signingKey nonce : List Nat) (stateFile : String)
    (threshold : Nat) : Fs :=
  fsWrite fs stateFile
    (marshalState ⟨verificationKey, signingKey, nonce, threshold⟩)

/-- Embedding of `ReadStateFromFile`: read then deserialize. -/
def ReadStateFromFile (unmarshalState : List Nat → Option State) (fs : Fs)
    (stateFile : String) : Except String State :=
  match fs stateFile with
  | none => .error "failed to read state file"
  | some data =>
    match unmarshalState data with
    | none => .error "failed to unmarshal state JSON"
    | some st => .ok st

/-! ### Setup and Unlock workflows -/

/-- Trace of a successful `Setup`: the resulting file system and the nonce
argument that `Setup` passed to `EncryptFile`. -/
structure SetupTrace where
  fs : Fs
  encryptNonce : List Nat

/-- Modelled from the spec: the current service-based `Setup` is not under
`src/` — the two `Setup` revisions present there predate the `Nonce` field
used by `state/state.go` and `unlock.go`. Per spec §4.5, Setup pre-checks
the keyfile (external collaborator, `testKeyfileOk`), runs `CreateSecret`,
persists `{VerificationKey, SigningKey, Nonce, Threshold}`, encrypts the
keyfile under `(Secret, Nonce)`, and deletes the plaintext keyfile;
printing the shares has no file-system effect. -/
def Setup (p : Nat) (mac : List Nat → List Nat → List Nat)
    (marshalState : State → List Nat)
    (sealf : List Nat → List Nat → List Nat → List Nat)
    (marshalEnv : EncryptionData → List Nat)
    (testKeyfileOk : Bool) (fs : Fs)
    (keyFile encryptedFile stateFile : String) (threshold shares : Nat)
    (secretScalar : ZMod p) (coeffs : List (ZMod p))
    (vkBytes signingKeyRand nonceRand padding : List Nat) :
    Except String SetupTrace :=
  if testKeyfileOk = false then .error "keyfile test failed"
  else
    match CreateSecret p mac threshold shares secretScalar coeffs vkBytes
        signingKeyRand nonceRand with
    | .error e => .error e
    | .ok secret =>
      let fs1 := WriteStateToFile marshalState fs secret.VerificationKey
        secret.SigningKey secret.Nonce stateFile threshold
      match EncryptFile sealf marshalEnv fs1 keyFile encryptedFile
          secret.Secret secret.Nonce padding with
      | (_, .error e) => .error e
      | (fs2, .ok _) => .ok ⟨fsRemove fs2 keyFile, secret.Nonce⟩

/-- Trace of a successful `Unlock`: the resulting file system and the nonce
argument that `Unlock` passed to `DecryptFile`. -/
structure UnlockTrace where
  fs : Fs
  decryptNonce : List Nat

/-- Embedding of `Unlock` (`unlock.go`): unless in test mode, abort when
the array is already started and fail when the wait for "Stopped" times
out (both external observations, passed as booleans); read the persisted
state; retrieve and combine the shares (`retrieveSecret`, abstracted as
`retrieve` — the orchestrator is modelled separately); decrypt the keyfile
under the **persisted** nonce; the deferred keyfile removal runs on exit.
The post-decrypt array start and keyfile test touch no modelled file. -/
def Unlock (opn : List Nat → List Nat → List Nat → Option (List Nat))
    (unmarshalEnv : List Nat → Option EncryptionData)
    (unmarshalState : List Nat → Option State)
    (retrieve : State → Except String (List Nat))
    (arrayStarted arrayStoppedOk testMode : Bool)
    (fs : Fs) (stateFile encryptedFile keyFile : String) :
    Except String UnlockTrace :=
  if testMode = false ∧ arrayStarted = true then
    .error "array is already started, aborting unlock"
  else if testMode = false ∧ arrayStoppedOk = false then
    .error "failed to verify array stopped"
  else
    match ReadStateFromFile unmarshalState fs stateFile with
    | .error e => .error e
    | .ok st =>
      match retrieve st with
      | .error e => .error e
      | .ok secret =>
        match DecryptFile opn unmarshalEnv fs encryptedFile keyFile secret
            st.Nonce with
        | (_, .error e) => .error e
        | (fs2, .ok _) => .ok ⟨fsRemove fs2 keyFile, st.Nonce⟩

theorem DecryptFile_frame
    (opn : List Nat → List Nat → List Nat → Option (List Nat))
    (unmarshal : List Nat → Option EncryptionData)
    (fs : Fs) (inputPath outputPath : String) (key nonce : List Nat)
    (fs' : Fs) (r : Except String Unit)
    (h : DecryptFile opn unmarshal fs inputPath outputPath key nonce
        = (fs', r))
    (q : String) (hq : q ≠ outputPath) : fs' q = fs q := by
  unfold DecryptFile at h
  repeat' split at h
  all_goals
    obtain ⟨rfl, rfl⟩ := Prod.mk.injEq .. ▸ h
  all_goals simp_all [fsWrite_other _ _ _ _ hq]

/-- C3: the nonce is generated exactly once, by `CreateSecret` inside
`Setup`, which passes exactly that nonce to `EncryptFile` and persists it
in the state file; every `Unlock` run against that persisted state (any
file system agreeing with `Setup`'s output on the state file) passes
byte-for-byte the same nonce to `DecryptFile` and leaves the state file
unchanged — so arbitrarily many consecutive `Unlock` runs all decrypt
under the `Setup`-generated nonce, and `Unlock` draws no randomness. -/
theorem C3_nonce_generated_once_reused
    (p : Nat) (mac : List Nat → List Nat → List Nat)
    (marshalState : State → List Nat)
    (unmarshalState : List Nat → Option State)
    (hsu : ∀ st, unmarshalState (marshalState st) = some st)
    (sealf : List Nat → List Nat → List Nat → List Nat)
    (marshalEnv : EncryptionData → List Nat)
    (opn : List Nat → List Nat → List Nat → Option (List Nat))
    (unmarshalEnv : List Nat → Option EncryptionData)
    (retrieve : State → Except String (List Nat))
    (fs : Fs) (keyFile encryptedFile stateFile : String)
    (hsk : stateFile ≠ keyFile) (hse : stateFile ≠ encryptedFile)
    (threshold shares : Nat) (ht : threshold ≠ 0) (htn : threshold ≤ shares)
    (secretScalar : ZMod p) (coeffs : List (ZMod p))
    (vkBytes signingKeyRand nonceRand padding P : List Nat)
    (hkf : fs keyFile = some P)
    (hnl : nonceRand.length = NonceBytes) :
    ∃ tr : SetupTrace,
      Setup p mac marshalState sealf marshalEnv true fs keyFile
          encryptedFile stateFile threshold shares secretScalar coeffs
          vkBytes signingKeyRand nonceRand padding = .ok tr
      ∧ tr.encryptNonce = nonceRand
      ∧ ReadStateFromFile unmarshalState tr.fs stateFile
          = .ok ⟨vkBytes, signingKeyRand, nonceRand, threshold⟩
      ∧ ∀ (fs2 : Fs) (arrayStarted arrayStoppedOk testMode : Bool)
          (utr : UnlockTrace),
          fs2 stateFile = tr.fs stateFile →
          Unlock opn unmarshalEnv unmarshalState retrieve arrayStarted
              arrayStoppedOk testMode fs2 stateFile encryptedFile keyFile
            = .ok utr →
          utr.decryptNonce = nonceRand
            ∧ utr.fs stateFile = fs2 stateFile := by
  have hps : Shard p secretScalar coeffs threshold shares
      = .ok ((List.range shares).map (fun i =>
          (⟨i + 1, hornerEval p (secretScalar :: coeffs)
            ((i + 1 : Nat) : ZMod p)⟩ : KeyShare p))) := by
    unfold Shard
    rw [if_neg (by omega)]
  set sv := (List.range shares).map (fun i =>
    (⟨i + 1, hornerEval p (secretScalar :: coeffs)
      ((i + 1 : Nat) : ZMod p)⟩ : KeyShare p)) with hsv
  have hcs : CreateSecret p mac threshold shares secretScalar coeffs vkBytes
      signingKeyRand nonceRand
      = .ok ⟨vkBytes, signingKeyRand,
          sv.map (fun sh => SignShare mac signingKeyRand (keyShareEncode p sh)),
          encodeScalar p secretScalar, nonceRand⟩ := by
    simp only [CreateSecret, hps, bind, Except.bind]
  set stBytes := marshalState ⟨vkBytes, signingKeyRand, nonceRand, threshold⟩
    with hstb
  set fs1 := fsWrite fs stateFile stBytes with hfs1
  have hkf1 : fs1 keyFile = some P := by
    rw [hfs1, fsWrite_other fs stateFile keyFile stBytes (Ne.symm hsk)]
    exact hkf
  have htk : trimKey (encodeScalar p secretScalar) EncryptionKeyBytes
      = .ok ((encodeScalar p secretScalar).take EncryptionKeyBytes) := by
    unfold trimKey
    rw [if_neg (by rw [encodeScalar, natToLE_length]; simp [EncryptionKeyBytes])]
  have htn' : trimKey nonceRand gcmNonceSize
      = .ok (nonceRand.take gcmNonceSize) := by
    unfold trimKey
    rw [if_neg (by rw [hnl]; simp [NonceBytes, gcmNonceSize])]
  set ct := sealf ((encodeScalar p secretScalar).take EncryptionKeyBytes)
    (nonceRand.take gcmNonceSize) (marshalEnv ⟨P, padding⟩) with hctdef
  have henc : EncryptFile sealf marshalEnv fs1 keyFile encryptedFile
      (encodeScalar p secretScalar) nonceRand padding
      = (fsWrite fs1 encryptedFile ct, .ok ()) := by
    unfold EncryptFile
    rw [hkf1]
    simp only [encryptData, htk, htn', bind, Except.bind, hctdef]
  have hstate : (fsRemove (fsWrite fs1 encryptedFile ct) keyFile) stateFile
      = some stBytes := by
    rw [fsRemove_other _ _ _ hsk, fsWrite_other _ _ _ _ hse, hfs1,
      fsWrite_self]
  have hread0 : ReadStateFromFile unmarshalState
      (fsRemove (fsWrite fs1 encryptedFile ct) keyFile) stateFile
      = .ok ⟨vkBytes, signingKeyRand, nonceRand, threshold⟩ := by
    unfold ReadStateFromFile
    simp only [hstate, hstb, hsu]
  refine ⟨⟨fsRemove (fsWrite fs1 encryptedFile ct) keyFile, nonceRand⟩,
    ?_, rfl, ?_, ?_⟩
  · simp only [Setup, Bool.true_eq_false, if_false, hcs, WriteStateToFile,
      ← hstb, ← hfs1, henc]
  · exact hread0
  · intro fs2 arrayStarted arrayStoppedOk testMode utr hagree hunlock
    have hread : ReadStateFromFile unmarshalState fs2 stateFile
        = .ok ⟨vkBytes, signingKeyRand, nonceRand, threshold⟩ := by
      unfold ReadStateFromFile
      unfold ReadStateFromFile at hread0
      rw [show fs2 stateFile
          = (fsRemove (fsWrite fs1 encryptedFile ct) keyFile) stateFile
          from hagree]
      exact hread0
    unfold Unlock at hunlock
    split at hunlock
    · simp at hunlock
    · split at hunlock
      · simp at hunlock
      · rw [hread] at hunlock
        simp only at hunlock
        cases hret : retrieve ⟨vkBytes, signingKeyRand, nonceRand, threshold⟩
          with
        | error e =>
          rw [hret] at hunlock
          simp at hunlock
        | ok secret =>
          rw [hret] at hunlock
          simp only at hunlock
          obtain ⟨fs4, r4, hdec4⟩ :
              ∃ fs4 r4, DecryptFile opn unmarshalEnv fs2 encryptedFile
                keyFile secret nonceRand = (fs4, r4) := ⟨_, _, rfl⟩
          rw [hdec4] at hunlock
          cases r4 with
          | error e => simp at hunlock
          | ok u =>
            simp only [Except.ok.injEq] at hunlock
            subst hunlock
            refine ⟨rfl, ?_⟩
            show (fsRemove fs4 keyFile) stateFile = fs2 stateFile
            rw [fsRemove_other _ _ _ hsk]
            exact DecryptFile_frame opn unmarshalEnv fs2 encryptedFile
              keyFile secret nonceRand fs4 (.ok u) hdec4 stateFile hsk

/-- Length-prefixed state codec used by witnesses. -/
def marshalStateW (st : State) : List Nat :=
  st.VerificationKey.length :: st.SigningKey.length :: st.Nonce.length ::
    st.Threshold :: (st.VerificationKey ++ st.SigningKey ++ st.Nonce)

/-- Decoder matching `marshalStateW`. -/
def unmarshalStateW : List Nat → Option State
  | a :: b :: c :: t :: rest =>
    if rest.length = a + b + c then
      some ⟨rest.take a, (rest.drop a).take b, ((rest.drop a).drop b).take c, t⟩
    else none
  | _ => none

theorem unmarshalStateW_marshalStateW (st : State) :
    unmarshalStateW (marshalStateW st) = some st := by
  obtain ⟨vk, sk, nn, t⟩ := st
  simp only [marshalStateW, unmarshalStateW, List.append_assoc]
  rw [if_pos (by simp [Nat.add_assoc])]
  rw [List.take_left' rfl, List.drop_left' rfl, List.take_left' rfl,
    List.drop_left' rfl, List.take_length]

/-- Witness for C3 at concrete paths, randomness and codecs. -/
theorem C3_nonce_generated_once_reused_witness :
    ∃ tr : SetupTrace,
      Setup 101 macConst marshalStateW sealId marshalPair true fsOne "in"
          "enc" "st" 2 3 7 [5] [] [] (List.replicate 12 8) [] = .ok tr
      ∧ tr.encryptNonce = List.replicate 12 8
      ∧ ReadStateFromFile unmarshalStateW tr.fs "st"
          = .ok ⟨[], [], List.replicate 12 8, 2⟩
      ∧ ∀ (fs2 : Fs) (arrayStarted arrayStoppedOk testMode : Bool)
          (utr : UnlockTrace),
          fs2 "st" = tr.fs "st" →
          Unlock openId unmarshalPair unmarshalStateW
              (fun _ => .ok (List.replicate 32 0)) arrayStarted
              arrayStoppedOk testMode fs2 "st" "enc" "in"
            = .ok utr →
          utr.decryptNonce = List.replicate 12 8
            ∧ utr.fs "st" = fs2 "st" :=
  C3_nonce_generated_once_reused 101 macConst marshalStateW unmarshalStateW
    unmarshalStateW_marshalStateW sealId marshalPair openId unmarshalPair
    (fun _ => .ok (List.replicate 32 0)) fsOne "in" "enc" "st"
    (by decide) (by decide) 2 3 (by decide) (by decide) 7 [5]
    [] [] (List.replicate 12 8) [] [1, 2, 3] (by decide) (by decide)

/-! ### Share collection orchestrator (`secrets/get.go`)

`tryGetShare` fetches one path (`FetchShare`) and decodes/verifies the
result (`GetShare`); `collectShares` drives rounds of concurrent attempts
whose shared state (`triedPaths`, `seenShares`, `shares`) is serialized by
one mutex, so a round is embedded as a sequential fold over the
not-yet-tried paths. The per-path per-round outcome is an oracle
`Nat → String → TryResult`: fetch failure, fetch success with a
decode/verification failure, or fetch success with a share carrying the
given identifier. Collected shares matter here only through their
identifiers, so a collected share is represented by its identifier; the
inter-round sleep has no effect in the model, and the fuel argument
accounts for the loop's possible non-termination (a run out of fuel is
`none`). -/

/-- Outcome of `tryGetShare` for one path: the boolean in the source's
`(RetrievedShare, fetchSucceeded, err)` triple is false exactly in the
`fetchFail` case. -/
inductive TryResult where
  | fetchFail
  | decodeFail
  | ok (sid : Nat)
deriving DecidableEq

/-- Mutex-protected shared state of one `collectShares` invocation. -/
structure CollectState where
  tried : List String
  seen : List Nat
  shares : List Nat
deriving DecidableEq

/-- One path's processing inside a round: skip already-tried paths; mark
tried exactly when the fetch succeeded; drop shares with an
already-seen identifier; otherwise record the share. -/
def tryStep (orc : String → TryResult) (st : CollectState) (path : String) :
    CollectState :=
  if path ∈ st.tried then st
  else
    match orc path with
    | .fetchFail => st
    | .decodeFail => { st with tried := st.tried ++ [path] }
    | .ok sid =>
      if sid ∈ st.seen then { st with tried := st.tried ++ [path] }
      else ⟨st.tried ++ [path], st.seen ++ [sid], st.shares ++ [sid]⟩

/-- One collection round over the configured paths. -/
def runRound (orc : String → TryResult) (paths : List String)
    (st : CollectState) : CollectState :=
  paths.foldl (tryStep orc) st

/-- Embedding of the `collectShares` loop: abort when the array has left
the stopped state; run a round; succeed once the threshold is met (not in
test mode); stop once every path has been tried or in test mode; otherwise
retry after the sleep. -/
def collectShares (abortOracle : Nat → Bool)
    (orc : Nat → String → TryResult) (paths : List String) (threshold : Nat)
    (test : Bool) : Nat → Nat → CollectState →
    Option (Except String CollectState)
  | 0, _, _ => none
  | fuel + 1, r, st =>
    if abortOracle r then
      some (.error "array is no longer stopped, aborting share retrieval")
    else
      let st' := runRound (orc r) paths st
      if threshold ≤ st'.shares.length ∧ test = false then some (.ok st')
      else if paths.length ≤ st'.tried.length ∨ test = true then
        some (.ok st')
      else collectShares abortOracle orc paths threshold test fuel (r + 1) st'

/-- Embedding of `GetShares`: run `collectShares`, then demand at least
`threshold` shares. -/
def GetShares (abortOracle : Nat → Bool) (orc : Nat → String → TryResult)
    (paths : List String) (threshold : Nat) (test : Bool) (fuel : Nat) :
    Option (Except String (List Nat)) :=
  match collectShares abortOracle orc paths threshold test fuel 0
      ⟨[], [], []⟩ with
  | none => none
  | some (.error e) => some (.error e)
  | some (.ok st) =>
    if threshold ≤ st.shares.length then some (.ok st.shares)
    else
      some (.error "tried all paths, could not retrieve enough valid shares")

theorem tryStep_tried_mono (orc : String → TryResult) (st : CollectState)
    (p q : String) (h : q ∈ st.tried) : q ∈ (tryStep orc st p).tried := by
  unfold tryStep
  split
  · exact h
  · split
    · exact h
    · simp [h]
    · split
      · simp [h]
      · simp [h]

theorem runRound_tried_mono (orc : String → TryResult) (paths : List String)
    (st : CollectState) (q : String) (h : q ∈ st.tried) :
    q ∈ (runRound orc paths st).tried := by
  induction paths generalizing st with
  | nil => exact h
  | cons p rest ih =>
    rw [runRound, List.foldl_cons]
    exact ih _ (tryStep_tried_mono orc st p q h)

theorem tryStep_tried_iff (orc : String → TryResult) (st : CollectState)
    (p path : String) :
    path ∈ (tryStep orc st p).tried ↔
      path ∈ st.tried ∨ (path = p ∧ orc p ≠ .fetchFail) := by
  unfold tryStep
  by_cases hp : p ∈ st.tried
  · rw [if_pos hp]
    refine ⟨Or.inl, ?_⟩
    rintro (h | ⟨rfl, _⟩)
    · exact h
    · exact hp
  · rw [if_neg hp]
    cases horc : orc p with
    | fetchFail => simp [horc]
    | decodeFail => simp [horc]
    | ok sid =>
      simp only [horc]
      by_cases hs : sid ∈ st.seen
      · simp [hs]
      · simp [hs]

theorem runRound_tried_not_mem (orc : String → TryResult)
    (paths : List String) (st : CollectState) (path : String)
    (h : path ∉ paths) :
    path ∈ (runRound orc paths st).tried ↔ path ∈ st.tried := by
  induction paths generalizing st with
  | nil => exact Iff.rfl
  | cons p rest ih =>
    rw [runRound, List.foldl_cons]
    have hne : path ≠ p := fun hh => h (by simp [hh])
    have hrest : path ∉ rest := fun hh => h (by simp [hh])
    rw [show List.foldl (tryStep orc) (tryStep orc st p) rest
        = runRound orc rest (tryStep orc st p) from rfl, ih _ hrest,
      tryStep_tried_iff]
    constructor
    · rintro (hh | ⟨rfl, _⟩)
      · exact hh
      · exact absurd rfl hne
    · exact Or.inl

theorem runRound_tried_iff (orc : String → TryResult) (paths : List String)
    (st : CollectState) (path : String) (hmem : path ∈ paths) :
    path ∈ (runRound orc paths st).tried ↔
      path ∈ st.tried ∨ orc path ≠ .fetchFail := by
  induction paths generalizing st with
  | nil => cases hmem
  | cons p rest ih =>
    rw [runRound, List.foldl_cons,
      show List.foldl (tryStep orc) (tryStep orc st p) rest
        = runRound orc rest (tryStep orc st p) from rfl]
    rcases List.mem_cons.mp hmem with rfl | hmem'
    · by_cases hrest : path ∈ rest
      · rw [ih _ hrest, tryStep_tried_iff]
        constructor
        · rintro ((h | ⟨_, h⟩) | h)
          · exact Or.inl h
          · exact Or.inr h
          · exact Or.inr h
        · rintro (h | h)
          · exact Or.inl (Or.inl h)
          · exact Or.inl (Or.inr ⟨rfl, h⟩)
      · rw [runRound_tried_not_mem _ _ _ _ hrest, tryStep_tried_iff]
        constructor
        · rintro (h | ⟨_, h⟩)
          · exact Or.inl h
          · exact Or.inr h
        · rintro (h | h)
          · exact Or.inl h
          · exact Or.inr ⟨rfl, h⟩
    · rw [ih _ hmem', tryStep_tried_iff]
      constructor
      · rintro ((h | ⟨rfl, h⟩) | h)
        · exact Or.inl h
        · exact Or.inr h
        · exact Or.inr h
      · rintro (h | h)
        · exact Or.inl (Or.inl h)
        · exact Or.inr h

/-- C4: in a collection round, a configured path ends the round marked
tried exactly when it was already tried or its fetch succeeded this round
— regardless of whether the subsequent decode/verification failed — and
tried paths stay tried. Hence a fetch-failed path is still untried and is
dispatched again in the next round, while a path whose fetch succeeded
but whose share failed decode/verification is tried and never dispatched
again. -/
theorem C4_tried_iff_fetch_succeeded (orc : String → TryResult)
    (paths : List String) (st : CollectState) (path : String)
    (hmem : path ∈ paths) :
    (path ∈ (runRound orc paths st).tried ↔
      path ∈ st.tried ∨ orc path ≠ .fetchFail)
    ∧ (orc path = .decodeFail → path ∈ (runRound orc paths st).tried)
    ∧ (∀ q ∈ st.tried, q ∈ (runRound orc paths st).tried) := by
  refine ⟨runRound_tried_iff orc paths st path hmem, ?_, ?_⟩
  · intro hdec
    exact (runRound_tried_iff orc paths st path hmem).mpr
      (Or.inr (by simp [hdec]))
  · exact fun q hq => runRound_tried_mono orc paths st q hq

/-- Witness for C4: one round over two paths, one fetch-failing and one
returning a corrupt share. -/
theorem C4_tried_iff_fetch_succeeded_witness :
    ("a" ∈ (runRound
        (fun q => if q = "a" then .decodeFail else .fetchFail)
        ["a", "b"] ⟨[], [], []⟩).tried ↔
      "a" ∈ (⟨[], [], []⟩ : CollectState).tried
        ∨ (fun q : String => if q = "a" then TryResult.decodeFail
            else TryResult.fetchFail) "a" ≠ .fetchFail)
    ∧ ((fun q : String => if q = "a" then TryResult.decodeFail
          else TryResult.fetchFail) "a" = .decodeFail →
        "a" ∈ (runRound
          (fun q => if q = "a" then .decodeFail else .fetchFail)
          ["a", "b"] ⟨[], [], []⟩).tried)
    ∧ (∀ q ∈ (⟨[], [], []⟩ : CollectState).tried,
        q ∈ (runRound
          (fun q => if q = "a" then .decodeFail else .fetchFail)
          ["a", "b"] ⟨[], [], []⟩).tried) :=
  C4_tried_iff_fetch_succeeded
    (fun q => if q = "a" then .decodeFail else .fetchFail)
    ["a", "b"] ⟨[], [], []⟩ "a" (by decide)

/-- Invariant of the collection state: tried paths are distinct configured
paths, collected share identifiers are distinct, and the seen set tracks
exactly the collected identifiers. -/
def CollectInv (paths : List String) (st : CollectState) : Prop :=
  st.tried.Nodup ∧ (∀ q ∈ st.tried, q ∈ paths) ∧ st.shares.Nodup
    ∧ (∀ i : Nat, i ∈ st.seen ↔ i ∈ st.shares)

theorem tryStep_inv (orc : String → TryResult) (paths : List String)
    (st : CollectState) (p : String) (hp : p ∈ paths)
    (hinv : CollectInv paths st) : CollectInv paths (tryStep orc st p) := by
  obtain ⟨h1, h2, h3, h4⟩ := hinv
  unfold tryStep
  by_cases hpt : p ∈ st.tried
  · rw [if_pos hpt]
    exact ⟨h1, h2, h3, h4⟩
  · rw [if_neg hpt]
    have htried : (st.tried ++ [p]).Nodup := by
      simp [List.nodup_append, h1, hpt]
    have hmemt : ∀ q ∈ st.tried ++ [p], q ∈ paths := by
      intro q hq
      rcases List.mem_append.mp hq with h | h
      · exact h2 q h
      · simp only [List.mem_singleton] at h
        exact h ▸ hp
    cases horc : orc p with
    | fetchFail => exact ⟨h1, h2, h3, h4⟩
    | decodeFail => exact ⟨htried, hmemt, h3, h4⟩
    | ok sid =>
      show CollectInv paths
        (if sid ∈ st.seen then ⟨st.tried ++ [p], st.seen, st.shares⟩
          else ⟨st.tried ++ [p], st.seen ++ [sid], st.shares ++ [sid]⟩)
      by_cases hs : sid ∈ st.seen
      · rw [if_pos hs]
        exact ⟨htried, hmemt, h3, h4⟩
      · rw [if_neg hs]
        refine ⟨htried, hmemt, ?_, ?_⟩
        · have : sid ∉ st.shares := fun hc => hs ((h4 sid).mpr hc)
          simp [List.nodup_append, h3, this]
        · intro i
          simp only [List.mem_append, List.mem_singleton]
          constructor
          · rintro (h | h)
            · exact Or.inl ((h4 i).mp h)
            · exact Or.inr h
          · rintro (h | h)
            · exact Or.inl ((h4 i).mpr h)
            · exact Or.inr h

theorem runRound_inv (orc : String → TryResult) (paths sub : List String)
    (st : CollectState) (hsub : ∀ q ∈ sub, q ∈ paths)
    (hinv : CollectInv paths st) :
    CollectInv paths (sub.foldl (tryStep orc) st) := by
  induction sub generalizing st with
  | nil => exact hinv
  | cons p rest ih =>
    rw [List.foldl_cons]
    exact ih _ (fun q hq => hsub q (by simp [hq]))
      (tryStep_inv orc paths st p (hsub p (by simp)) hinv)

theorem collectShares_ok_inv (ab : Nat → Bool)
    (orc : Nat → String → TryResult) (paths : List String)
    (threshold : Nat) (test : Bool) (fuel : Nat) :
    ∀ (r : Nat) (st st' : CollectState),
    collectShares ab orc paths threshold test fuel r st = some (.ok st') →
    CollectInv paths st →
    CollectInv paths st'
      ∧ (test = false → st'.shares.length < threshold →
          paths.length ≤ st'.tried.length) := by
  induction fuel with
  | zero =>
    intro r st st' h
    simp [collectShares] at h
  | succ fuel ih =>
    intro r st st' h hinv
    simp only [collectShares] at h
    by_cases hab : ab r
    · simp [hab] at h
    · rw [if_neg (by simp [hab])] at h
      have hinv'' : CollectInv paths (runRound (orc r) paths st) :=
        runRound_inv (orc r) paths paths st (fun q hq => hq) hinv
      by_cases h1 : threshold ≤ (runRound (orc r) paths st).shares.length
          ∧ test = false
      · rw [if_pos h1] at h
        obtain rfl : runRound (orc r) paths st = st' := by simpa using h
        exact ⟨hinv'', fun _ hlt => absurd h1.1 (by omega)⟩
      · rw [if_neg h1] at h
        by_cases h2 : paths.length ≤ (runRound (orc r) paths st).tried.length
            ∨ test = true
        · rw [if_pos h2] at h
          obtain rfl : runRound (orc r) paths st = st' := by simpa using h
          refine ⟨hinv'', fun htf hlt => ?_⟩
          rcases h2 with h2 | h2
          · exact h2
          · rw [htf] at h2
            simp at h2
        · rw [if_neg h2] at h
          exact ih (r + 1) (runRound (orc r) paths st) st' h hinv''

theorem tried_covers (paths : List String) (st : CollectState)
    (hinv : CollectInv paths st) (hlen : paths.length ≤ st.tried.length) :
    ∀ p ∈ paths, p ∈ st.tried := by
  obtain ⟨h1, h2, _, _⟩ := hinv
  intro p hp
  have hsub : st.tried.toFinset ⊆ paths.toFinset := by
    intro x hx
    simp only [List.mem_toFinset] at hx ⊢
    exact h2 x hx
  have hcard : paths.toFinset.card ≤ st.tried.toFinset.card := by
    have hc1 : st.tried.toFinset.card = st.tried.length :=
      List.toFinset_card_of_nodup h1
    have hc2 : paths.toFinset.card ≤ paths.length :=
      paths.toFinset_card_le
    omega
  have heq : st.tried.toFinset = paths.toFinset :=
    Finset.eq_of_subset_of_card_le hsub hcard
  exact List.mem_toFinset.mp (heq ▸ List.mem_toFinset.mpr hp)

/-- Configured paths of the spec's five-path scenario. -/
def scenarioPaths : List String := ["p1", "p2", "p3", "p4", "p5"]

/-- Oracle of the spec's scenario: paths 1 and 3 always fail to fetch,
paths 2, 4, 5 return distinct valid shares. -/
def scenarioOracle : Nat → String → TryResult := fun _ path =>
  if path = "p1" ∨ path = "p3" then .fetchFail
  else if path = "p2" then .ok 102
  else if path = "p4" then .ok 104
  else .ok 105

/-- Final collection state of the scenario's single round. -/
def scenarioFinal : CollectState :=
  ⟨["p2", "p4", "p5"], [102, 104, 105], [102, 104, 105]⟩

/-- C5: whenever the collection loop terminates (test mode off), the
collected share identifiers are pairwise distinct — an already-seen
identifier is discarded, leaving shares and seen set unchanged while the
path is still marked tried, so it never counts as progress or error —
`GetShares` succeeds exactly when at least `threshold` distinct shares
were accumulated, and when it falls short every configured path has been
tried and `GetShares` returns the insufficient-shares error. In the
spec's scenario (threshold 3, five paths, paths 1 and 3 always failing,
paths 2, 4, 5 returning distinct valid shares) it returns exactly those 3
shares after the first round. -/
theorem C5_GetShares_threshold (ab : Nat → Bool)
    (orc : Nat → String → TryResult) (paths : List String)
    (threshold fuel : Nat) (st' : CollectState)
    (h : collectShares ab orc paths threshold false fuel 0 ⟨[], [], []⟩
        = some (.ok st')) :
    st'.shares.Nodup
    ∧ (GetShares ab orc paths threshold false fuel
        = some (.ok st'.shares) ↔ threshold ≤ st'.shares.length)
    ∧ (st'.shares.length < threshold →
        GetShares ab orc paths threshold false fuel
            = some (.error
              "tried all paths, could not retrieve enough valid shares")
          ∧ ∀ p ∈ paths, p ∈ st'.tried)
    ∧ (∀ (orc2 : String → TryResult) (st2 : CollectState) (path : String)
          (sid : Nat),
        path ∉ st2.tried → orc2 path = .ok sid → sid ∈ st2.seen →
        (tryStep orc2 st2 path).shares = st2.shares
          ∧ (tryStep orc2 st2 path).seen = st2.seen
          ∧ path ∈ (tryStep orc2 st2 path).tried)
    ∧ GetShares (fun _ => false) scenarioOracle scenarioPaths 3 false 1
        = some (.ok [102, 104, 105]) := by
  have hinv0 : CollectInv paths ⟨[], [], []⟩ :=
    ⟨List.nodup_nil, by simp, List.nodup_nil, by simp⟩
  obtain ⟨hinv', himp⟩ := collectShares_ok_inv ab orc paths threshold false
    fuel 0 ⟨[], [], []⟩ st' h hinv0
  have hGS : GetShares ab orc paths threshold false fuel
      = if threshold ≤ st'.shares.length then some (.ok st'.shares)
        else some (.error
          "tried all paths, could not retrieve enough valid shares") := by
    simp only [GetShares, h]
  refine ⟨hinv'.2.2.1, ?_, ?_, ?_, ?_⟩
  · rw [hGS]
    by_cases hth : threshold ≤ st'.shares.length
    · rw [if_pos hth]
      exact ⟨fun _ => hth, fun _ => rfl⟩
    · rw [if_neg hth]
      constructor
      · intro hcon
        exact absurd hcon (by simp)
      · intro hcon
        omega
  · intro hlt
    constructor
    · rw [hGS, if_neg (by omega)]
    · exact tried_covers paths st' hinv' (himp rfl hlt)
  · intro orc2 st2 path sid hnt ho hs
    unfold tryStep
    rw [if_neg hnt]
    simp only [ho]
    rw [if_pos hs]
    exact ⟨rfl, rfl, by simp⟩
  · rfl

/-- Witness for C5 at the spec's scenario. -/
theorem C5_GetShares_threshold_witness :
    scenarioFinal.shares.Nodup
    ∧ (GetShares (fun _ => false) scenarioOracle scenarioPaths 3 false 1
        = some (.ok scenarioFinal.shares)
          ↔ 3 ≤ scenarioFinal.shares.length)
    ∧ (scenarioFinal.shares.length < 3 →
        GetShares (fun _ => false) scenarioOracle scenarioPaths 3 false 1
            = some (.error
              "tried all paths, could not retrieve enough valid shares")
          ∧ ∀ p ∈ scenarioPaths, p ∈ scenarioFinal.tried)
    ∧ (∀ (orc2 : String → TryResult) (st2 : CollectState) (path : String)
          (sid : Nat),
        path ∉ st2.tried → orc2 path = .ok sid → sid ∈ st2.seen →
        (tryStep orc2 st2 path).shares = st2.shares
          ∧ (tryStep orc2 st2 path).seen = st2.seen
          ∧ path ∈ (tryStep orc2 st2 path).tried)
    ∧ GetShares (fun _ => false) scenarioOracle scenarioPaths 3 false 1
        = some (.ok [102, 104, 105]) :=
  C5_GetShares_threshold (fun _ => false) scenarioOracle scenarioPaths 3 1
    scenarioFinal (by rfl)

/-! ### Fetcher registry (`secrets/registry/registry.go`)

A fetcher counts here through its identity and priority only (`Match` and
`Fetch` do not affect ordering). `Register` appends the new fetcher and
re-sorts ascending by priority; `sort.Slice` is an unstable sort, embedded
as insertion sort — the spec allows equal-priority fetchers in either
relative order. `GetFetchers` returns a defensive copy, which for
immutable lists is the list itself. `registryMu` serializes registrations,
so a sequence of `Register` calls is a fold. -/

/-- A registered fetcher: identity plus priority (lower is tried first). -/
structure Fetcher where
  fid : Nat
  priority : Int
deriving DecidableEq

/-- Ascending-priority comparison used by the registry's sort. -/
def fetcherLE (a b : Fetcher) : Prop := a.priority ≤ b.priority

instance : DecidableRel fetcherLE := fun a b => Int.decLe a.priority b.priority

instance : IsTotal Fetcher fetcherLE := ⟨fun a b => Int.le_total a.priority b.priority⟩

instance : IsTrans Fetcher fetcherLE := ⟨fun _ _ _ hab hbc => le_trans hab hbc⟩

/-- Embedding of `Register`: append, then sort ascending by priority. -/
def Register (fetchers : List Fetcher) (f : Fetcher) : List Fetcher :=
  List.insertionSort fetcherLE (fetchers ++ [f])

/-- Embedding of `GetFetchers`: a copy of the registered list. -/
def GetFetchers (fetchers : List Fetcher) : List Fetcher := fetchers

/-- Registry contents after a sequence of `Register` calls, starting from
the empty registry. -/
def registerAll (fs : List Fetcher) : List Fetcher := fs.foldl Register []

theorem registerAll_sorted_aux (fs : List Fetcher) (acc : List Fetcher)
    (hacc : acc.Sorted fetcherLE) :
    (fs.foldl Register acc).Sorted fetcherLE := by
  induction fs generalizing acc with
  | nil => exact hacc
  | cons f rest ih =>
    rw [List.foldl_cons]
    exact ih _ (List.sorted_insertionSort fetcherLE _)

theorem registerAll_perm_aux (fs : List Fetcher) (acc : List Fetcher) :
    (fs.foldl Register acc).Perm (acc ++ fs) := by
  induction fs generalizing acc with
  | nil => simp
  | cons f rest ih =>
    rw [List.foldl_cons]
    refine ((ih (Register acc f)).trans ?_)
    have h1 : (Register acc f).Perm (acc ++ [f]) :=
      List.perm_insertionSort fetcherLE _
    have h2 : (Register acc f ++ rest).Perm ((acc ++ [f]) ++ rest) :=
      h1.append_right rest
    have h3 : (acc ++ [f]) ++ rest = acc ++ (f :: rest) := by simp
    exact h2.trans (h3 ▸ List.Perm.refl _)

/-- C8: after any sequence of `Register` calls, `GetFetchers` returns the
registered fetchers sorted ascending by priority and is a permutation of
the registered multiset (so equal-priority fetchers are all present, in
some order); registering priorities `[100, 10, 50]` in that order yields
retrieval order `[10, 50, 100]`. -/
theorem C8_GetFetchers_priority_sorted :
    (∀ fs : List Fetcher,
      (GetFetchers (registerAll fs)).Sorted fetcherLE
        ∧ (GetFetchers (registerAll fs)).Perm fs)
    ∧ (GetFetchers (registerAll [⟨0, 100⟩, ⟨1, 10⟩, ⟨2, 50⟩])).map
        Fetcher.priority = [10, 50, 100]
    ∧ (⟨7, 5⟩ : Fetcher) ∈ GetFetchers (registerAll [⟨7, 5⟩, ⟨8, 5⟩])
    ∧ (⟨8, 5⟩ : Fetcher) ∈ GetFetchers (registerAll [⟨7, 5⟩, ⟨8, 5⟩]) := by
  refine ⟨fun fs => ⟨registerAll_sorted_aux fs [] List.sorted_nil,
    by simpa using registerAll_perm_aux fs []⟩,
    by decide, by decide, by decide⟩

/-! ### Reset (`util.go`)

`ResetConfiguration` prompts for confirmation unless forced (the prompt's
outcome is the `confirmed` boolean) and then removes the state file, the
encrypted keyfile and the config file via `safeRemoveFile`, for which a
missing file is not an error. -/

/-- Embedding of `safeRemoveFile`: removing an absent file succeeds and
changes nothing. -/
def safeRemoveFile (fs : Fs) (file : String) : Fs × Except String Unit :=
  match fs file with
  | none => (fs, .ok ())
  | some _ => (fsRemove fs file, .ok ())

/-- Embedding of `ResetConfiguration`: no-op when neither forced nor
confirmed; otherwise remove the three artifact files in order, stopping at
the first error. -/
def ResetConfiguration (force confirmed : Bool) (fs : Fs)
    (statePath encryptedPath configPath : String) : Fs × Except String Unit :=
  if force = false ∧ confirmed = false then (fs, .ok ())
  else
    match safeRemoveFile fs statePath with
    | (fs1, .error e) => (fs1, .error e)
    | (fs1, .ok _) =>
      match safeRemoveFile fs1 encryptedPath with
      | (fs2, .error e) => (fs2, .error e)
      | (fs2, .ok _) =>
        match safeRemoveFile fs2 configPath with
        | (fs3, .error e) => (fs3, .error e)
        | (fs3, .ok _) => (fs3, .ok ())

theorem safeRemoveFile_spec (fs : Fs) (file : String) :
    safeRemoveFile fs file
      = ((fun q => if q = file then none else fs q), .ok ()) := by
  unfold safeRemoveFile
  cases h : fs file with
  | none =>
    have hfun : fs = fun q => if q = file then none else fs q := by
      funext q
      by_cases hq : q = file
      · subst hq
        simp [h]
      · simp [hq]
    rw [← hfun]
  | some v => rfl

/-- C9: when forced or confirmed, `ResetConfiguration` succeeds, removes
exactly the three configured artifact files and nothing else (any of them
already absent is not an error), and is idempotent: running it again on
its own output succeeds and changes nothing. -/
theorem C9_ResetConfiguration_removes_exactly
    (force confirmed : Bool) (h : force = true ∨ confirmed = true)
    (fs : Fs) (statePath encryptedPath configPath : String) :
    ∃ fs' : Fs,
      ResetConfiguration force confirmed fs statePath encryptedPath
          configPath = (fs', .ok ())
      ∧ fs' statePath = none ∧ fs' encryptedPath = none
      ∧ fs' configPath = none
      ∧ (∀ q, q ≠ statePath → q ≠ encryptedPath → q ≠ configPath →
          fs' q = fs q)
      ∧ ResetConfiguration force confirmed fs' statePath encryptedPath
          configPath = (fs', .ok ()) := by
  have hcond : ¬(force = false ∧ confirmed = false) := by
    rcases h with h | h <;> simp [h]
  have hrun : ∀ g : Fs,
      ResetConfiguration force confirmed g statePath encryptedPath
        configPath
      = ((fun q => if q = configPath then none
          else if q = encryptedPath then none
          else if q = statePath then none else g q), .ok ()) := by
    intro g
    unfold ResetConfiguration
    rw [if_neg hcond]
    simp only [safeRemoveFile_spec]
  set fs' : Fs := fun q => if q = configPath then none
    else if q = encryptedPath then none
    else if q = statePath then none else fs q with hfs'
  have hidem : (fun q => if q = configPath then none
      else if q = encryptedPath then none
      else if q = statePath then none else fs' q) = fs' := by
    funext q
    by_cases h1 : q = configPath
    · simp [hfs', h1]
    · by_cases h2 : q = encryptedPath
      · simp [hfs', h1, h2]
      · by_cases h3 : q = statePath
        · simp [hfs', h1, h2, h3]
        · simp [hfs', h1, h2, h3]
  refine ⟨fs', hrun fs, ?_, ?_, ?_, ?_, ?_⟩
  · by_cases h1 : statePath = configPath
    · simp [hfs', h1]
    · by_cases h2 : statePath = encryptedPath
      · simp [hfs', h1, h2]
      · simp [hfs', h1, h2]
  · by_cases h1 : encryptedPath = configPath
    · simp [hfs', h1]
    · simp [hfs', h1]
  · simp [hfs']
  · intro q hq1 hq2 hq3
    simp [hfs', hq1, hq2, hq3]
  · rw [hrun fs', hidem]

/-- Witness for C9 with the force flag set, on a file system where two of
the three files are absent. -/
theorem C9_ResetConfiguration_removes_exactly_witness :
    ∃ fs' : Fs,
      ResetConfiguration true false fsOne "st" "enc" "cfg" = (fs', .ok ())
      ∧ fs' "st" = none ∧ fs' "enc" = none ∧ fs' "cfg" = none
      ∧ (∀ q, q ≠ "st" → q ≠ "enc" → q ≠ "cfg" → fs' q = fsOne q)
      ∧ ResetConfiguration true false fs' "st" "enc" "cfg"
          = (fs', .ok ()) :=
  C9_ResetConfiguration_removes_exactly true false (Or.inl rfl) fsOne
    "st" "enc" "cfg"

end AutoUnlock
